import Mathlib

/-!
Shallow embedding of the WAV-file-editor library (`src/SoundSegment.cpp`,
`src/SoundSegment_Simple.cpp`, shared header `src/SoundSegment.hpp`).

Modelling conventions:
* `size_t` values (positions, lengths, offsets) are `Nat`; the quantities in
  every claim stay far below `2^64`, so machine wrap-around never matters.
* `int16_t` samples are `Int` (the code only stores and compares them; the
  `identify` arithmetic is exact for 16-bit samples, see below).
* A `std::shared_ptr<std::vector<int16_t>>` buffer is embedded as the list of
  its samples stored inside each node.  Segments that share a buffer in C++
  always view pairwise-disjoint windows of it (`splitNode` produces disjoint
  windows and every memcpy/memmove stays inside the acting node's own window),
  so per-node copies of the buffer are observationally identical to sharing.
* The singly linked `next` chain of `SegmentNode`s is a `List`.
* `weak_ptr` child references: `SegmentNode::addChild` is never invoked
  anywhere in the repository, so the set of live children of a node is
  modelled by a count `children : Nat` (`hasActiveChildren` = `children ≠ 0`);
  every node the code constructs carries `children = 0`.  The `parents` list
  and `is_buffer_owner` flag are write-only in the source (they only steer
  deallocation) and are omitted.
* The null-pointer dereference in `SoundSegment::insert` (when the built
  insertion chain is empty but the splice code runs `insertion_tail->next`)
  is undefined behaviour; `insert` therefore returns `Option`, with `none`
  for that crash.
* `identify` computes correlations in `double`; for 16-bit samples and the
  window sizes at hand every product and sum is an exact integer below
  `2^53`, so the arithmetic is embedded exactly over `ℚ`
  (`0.95` is the rational `19/20`).
-/

namespace AudioEditor

/-- One `SegmentNode` of `SoundSegment.hpp`: a view (`offset`, `length`) into
a sample buffer `data`, with the cached `global_start` index and the number
of live child references (always `0` in states the code can build, since
`addChild` is never called). -/
structure SegmentNode where
  data : List Int
  offset : Nat
  length : Nat
  global_start : Nat
  children : Nat
deriving DecidableEq

/-- The `SoundSegment` track object: the chain of segments (`head` pointer
walk) plus the cached `total_length`. -/
structure SoundSegment where
  head : List SegmentNode
  total_length : Nat
deriving DecidableEq

/-- A fresh track, as built by `SoundSegment::SoundSegment()`. -/
def emptyTrack : SoundSegment := ⟨[], 0⟩

/-- The samples a segment exposes: its window into its buffer. -/
def window (n : SegmentNode) : List Int := (n.data.drop n.offset).take n.length

/-- Sum of the segment lengths of a chain. -/
def sumLen : List SegmentNode → Nat
  | [] => 0
  | n :: rest => n.length + sumLen rest

/-- The logical contents of a chain: all windows, in chain order. -/
def flatten : List SegmentNode → List Int
  | [] => []
  | n :: rest => window n ++ flatten rest

/-- `memcpy(d + a, v, |v|)`: overwrite `|v|` entries of `d` starting at `a`. -/
def setSlice (d : List Int) (a : Nat) (v : List Int) : List Int :=
  d.take a ++ v ++ d.drop (a + v.length)

/-- `memmove(d + a, d + a + k, cnt)`: shift `cnt` entries left by `k`
inside `d`, starting at position `a`; entries past `a + cnt` keep their old
values (the stale tail a real memmove leaves behind). -/
def shiftLeft (d : List Int) (a k cnt : Nat) : List Int :=
  d.take a ++ (d.drop (a + k)).take cnt ++ d.drop (a + cnt)

/-- `SoundSegment::updateGlobalIndices`: one sweep re-assigning each
`global_start` to the running sum of preceding lengths. -/
def updateGI : List SegmentNode → Nat → List SegmentNode
  | [], _ => []
  | n :: rest, g => { n with global_start := g } :: updateGI rest (g + n.length)

/-- The track after `updateGlobalIndices`: re-indexed chain and the recomputed
`total_length` (the final value of `global_pos`). -/
def updateState (ns : List SegmentNode) : SoundSegment :=
  ⟨updateGI ns 0, sumLen ns⟩

/-- `SoundSegment::findSegmentAt`: linear scan for the segment whose cached
range `[global_start, global_start + length)` contains `pos`.  Returns the
index of that segment in the chain together with the local offset. -/
def findSegmentAt : List SegmentNode → Nat → Option (Nat × Nat)
  | [], _ => none
  | n :: rest, pos =>
    if n.global_start ≤ pos ∧ pos < n.global_start + n.length then
      some (0, pos - n.global_start)
    else
      (findSegmentAt rest pos).map (fun p => (p.1 + 1, p.2))

/-- Loop of `SoundSegment::read(int16_t*, size_t, size_t)`: walk the chain;
whenever the running position lies in the current segment, copy
`min(remaining, samples_in_node)` samples into `dest` at index `copied`.
`dest` plays the role of the destination array (the vector overload passes a
freshly resized zero vector).  The `replicate` padding keeps the chunk length
at `k` even for ill-formed windows; for well-formed chains it is empty. -/
def readLoop : List SegmentNode → Nat → Nat → Nat → List Int → List Int
  | [], _, _, _, dest => dest
  | c :: rest, start_pos, len, copied, dest =>
    if copied < len then
      if c.global_start ≤ start_pos ∧ start_pos < c.global_start + c.length then
        let li := start_pos - c.global_start
        let k := min (len - copied) (c.length - li)
        let chunk := (c.data.drop (c.offset + li)).take k
        let chunk := chunk ++ List.replicate (k - chunk.length) 0
        readLoop rest (start_pos + k) len (copied + k) (setSlice dest copied chunk)
      else readLoop rest start_pos len copied dest
    else dest

/-- `SoundSegment::read` into a freshly resized destination vector
(`dest.resize(len)` zero-fills it). -/
def read (s : SoundSegment) (start_pos len : Nat) : List Int :=
  readLoop s.head start_pos len 0 (List.replicate len 0)

/-- `SoundSegment::getAllSamples`. -/
def getAllSamples (s : SoundSegment) : List Int := read s 0 s.total_length

/-- Extension step of `SoundSegment::write`: if the chain is empty, create
one zero-filled owner segment of the full new size; otherwise, if the last
segment ends before `end_pos`, append a zero-filled segment covering the
gap up to `end_pos`. -/
def extendChain (ns : List SegmentNode) (end_pos : Nat) : List SegmentNode :=
  match ns.getLast? with
  | none => [⟨List.replicate end_pos 0, 0, end_pos, 0, 0⟩]
  | some last =>
    let last_end := last.global_start + last.length
    if last_end < end_pos then
      ns ++ [⟨List.replicate (end_pos - last_end) 0, 0, end_pos - last_end, last_end, 0⟩]
    else ns

/-- Copy loop of `SoundSegment::write`: walk the chain and copy
`min(remaining, available)` source samples into each segment covering the
running global index. -/
def writeLoop : List SegmentNode → List Int → Nat → Nat → Nat → List SegmentNode
  | [], _, _, _, _ => []
  | c :: rest, src, gi, si, remaining =>
    if 0 < remaining then
      if c.global_start ≤ gi ∧ gi < c.global_start + c.length then
        let lo := gi - c.global_start
        let k := min remaining (c.length - lo)
        let chunk := (src.drop si).take k
        let chunk := chunk ++ List.replicate (k - chunk.length) 0
        { c with data := setSlice c.data (c.offset + lo) chunk } ::
          writeLoop rest src (gi + k) (si + k) (remaining - k)
      else c :: writeLoop rest src gi si remaining
    else c :: rest

/-- `SoundSegment::write`: no-op on an empty payload; otherwise extend the
chain when `pos + len` exceeds `total_length` (re-indexing afterwards) and
then overwrite the covered range in place. -/
def write (s : SoundSegment) (src : List Int) (pos : Nat) : SoundSegment :=
  if src.length = 0 then s
  else
    let end_pos := pos + src.length
    let s1 := if s.total_length < end_pos then updateState (extendChain s.head end_pos) else s
    ⟨writeLoop s1.head src pos 0 src.length, s1.total_length⟩

/-- First pass of `SoundSegment::deleteRange`, starting from the segment
containing `pos`: returns `true` when some touched segment has an active
child (`hasActiveChildren`), which makes the whole call fail. -/
def checkPass : List SegmentNode → Nat → Nat → Bool
  | [], _, _ => false
  | c :: rest, to_check, local_off =>
    if to_check = 0 then false
    else if c.children ≠ 0 then true
    else if to_check > c.length - local_off then
      checkPass rest (to_check - (c.length - local_off)) 0
    else false

/-- Second pass of `SoundSegment::deleteRange`, starting from the segment
containing `pos`: shift a partially covered segment's buffer left and shrink
it, truncate or prune fully covered segments. -/
def deleteLoop : List SegmentNode → Nat → Nat → List SegmentNode
  | [], _, _ => []
  | c :: rest, to_delete, local_off =>
    if to_delete = 0 then c :: rest
    else
      let available := c.length - local_off
      if to_delete < available then
        { c with
            data := shiftLeft c.data (c.offset + local_off) to_delete (available - to_delete),
            length := c.length - to_delete } :: rest
      else if local_off = 0 then deleteLoop rest (to_delete - available) 0
      else { c with length := local_off } :: deleteLoop rest (to_delete - available) 0

/-- `SoundSegment::deleteRange`: fail (leaving the track untouched) when the
range exceeds `total_length` or the child check fails; otherwise delete and
re-index.  When `findSegmentAt` finds no segment both passes fall through
and only `updateGlobalIndices` runs. -/
def deleteRange (s : SoundSegment) (pos len : Nat) : Bool × SoundSegment :=
  if s.total_length < pos + len then (false, s)
  else
    match findSegmentAt s.head pos with
    | none => (true, updateState s.head)
    | some (i, local_off) =>
      if checkPass (s.head.drop i) len local_off then (false, s)
      else (true, updateState (s.head.take i ++ deleteLoop (s.head.drop i) len local_off))

/-- Chain-building loop of `SoundSegment::insert`: walk the source range and
clone each contributing window into a freshly owned copied buffer
(the defensive `memcpy` path the code actually takes).  The first parameter
is recursion fuel; `len` iterations always suffice because each emitted clone
takes at least one sample. -/
def buildChain (src : SoundSegment) : Nat → Nat → Nat → List SegmentNode
  | 0, _, _ => []
  | fuel + 1, current_global, remaining =>
    if remaining = 0 then []
    else
      match findSegmentAt src.head current_global with
      | none => []
      | some (i, local_off) =>
        match src.head.drop i with
        | [] => []  -- unreachable: findSegmentAt returns an in-range index
        | c :: _ =>
          let take := min (c.length - local_off) remaining
          let chunk := (c.data.drop (c.offset + local_off)).take take
          let chunk := chunk ++ List.replicate (take - chunk.length) 0
          ⟨chunk, 0, take, 0, 0⟩ ::
            buildChain src fuel (current_global + take) (remaining - take)

/-- `SoundSegment::insert`: build the clone chain for
`[src_pos, src_pos + len)` of `src_track`, split the destination segment at
`dest_pos` when it lands strictly inside one, and splice the chain in.
`none` models the null-pointer dereference the code performs when the clone
chain is empty but `dest_pos` lands on an existing segment
(`insertion_tail->next` with `insertion_tail == nullptr`, after the splice
has already cut the chain at `prev`). -/
def insert (s : SoundSegment) (src_track : SoundSegment)
    (dest_pos src_pos len : Nat) : Option SoundSegment :=
  if len = 0 then some s
  else
    let chain := buildChain src_track len src_pos len
    match findSegmentAt s.head dest_pos with
    | none =>
      -- insert at end of track (also covers the empty-track case)
      some (updateState (s.head ++ chain))
    | some (i, dest_local) =>
      match s.head.drop i with
      | [] => some (updateState (s.head ++ chain))  -- unreachable: index in range
      | c :: suf =>
        if 0 < dest_local then
          -- splitNode, then splice between the left part and the right part
          let left := { c with length := dest_local }
          let right := { c with
              offset := c.offset + dest_local,
              length := c.length - dest_local,
              global_start := c.global_start + dest_local }
          if chain = [] then none
          else some (updateState (s.head.take i ++ left :: (chain ++ right :: suf)))
        else
          if chain = [] then none
          else some (updateState (s.head.take i ++ (chain ++ c :: suf)))

/-- Exact dot product of two sample lists (the `corr`/`auto_ref` summation
loops of `identify`, which pair `target[i+j]` with `pattern[j]` for
`j < pattern.size()`). -/
def dotInt : List Int → List Int → Int
  | _, [] => 0
  | [], _ => 0
  | a :: as_, b :: bs => a * b + dotInt as_ bs

/-- Cross-correlation of the pattern with the target window starting at `i`
(the inner `corr` loop). -/
def corrInt (ts ps : List Int) (i : Nat) : Int := dotInt ((ts.drop i).take ps.length) ps

/-- The same correlation as an exact rational (the C++ accumulates in
`double`, which is exact on these integer products and sums). -/
def corrAt (ts ps : List Int) (i : Nat) : ℚ := (corrInt ts ps i : ℚ)

/-- `threshold = CORRELATION_THRESHOLD * auto_ref` with
`CORRELATION_THRESHOLD = 0.95`. -/
def threshold (ps : List Int) : ℚ := (95 : ℚ) / 100 * ((dotInt ps ps : Int) : ℚ)

/-- The comparison `corr >= threshold`, multiplied through by `100` so it is
exact integer arithmetic (equivalent to the rational comparison, see
`thresholdTest_iff`). -/
def thresholdTest (ts ps : List Int) (i : Nat) : Bool :=
  decide (95 * dotInt ps ps ≤ 100 * corrInt ts ps i)

/-- Scan loop of `SoundSegment::identify`: while `i + |pattern| ≤ |target|`,
record `(i, i + |pattern| - 1)` and jump by `|pattern|` when the correlation
reaches the threshold, else advance by one.  The first argument is recursion
fuel; `|target| + 1` iterations always suffice because the guard in
`identify` makes the pattern non-empty, so `i` strictly increases. -/
def identifyLoop (ts ps : List Int) : Nat → Nat → List (Nat × Nat)
  | 0, _ => []
  | fuel + 1, i =>
    if i + ps.length ≤ ts.length then
      if thresholdTest ts ps i then
        (i, i + ps.length - 1) :: identifyLoop ts ps fuel (i + ps.length)
      else identifyLoop ts ps fuel (i + 1)
    else []

/-- `SoundSegment::identify`, returning the recorded occurrence list (the
C++ then renders it as "start,end" lines; an empty list renders as the
empty string). -/
def identify (s ad : SoundSegment) : List (Nat × Nat) :=
  if s.total_length = 0 ∨ ad.total_length = 0 ∨ s.total_length < ad.total_length then []
  else
    let ts := getAllSamples s
    let ps := getAllSamples ad
    identifyLoop ts ps (ts.length + 1) 0

/-- Well-indexed chain: every cached `global_start` equals the running sum of
preceding lengths starting from `g`, and every window lies inside its
buffer. -/
def chainIdx : List SegmentNode → Nat → Bool
  | [], _ => true
  | n :: rest, g =>
    (n.global_start == g) && decide (n.offset + n.length ≤ n.data.length)
      && chainIdx rest (g + n.length)

/-- No segment of the chain is empty. -/
def allPos (ns : List SegmentNode) : Bool := ns.all (fun n => 0 < n.length)

/-- The structural invariant of a track: correctly cached global indices,
windows inside their buffers, no zero-length segment, and `total_length`
equal to the sum of the segment lengths. -/
def wf (s : SoundSegment) : Bool :=
  chainIdx s.head 0 && allPos s.head && s.total_length == sumLen s.head

/-- No segment of the track has a live child reference. -/
def noChildrenAll (s : SoundSegment) : Bool := s.head.all (fun n => n.children = 0)

/-- Does some segment that overlaps the (non-empty) range `[pos, pos+len)`
have a live child reference?  (The overlap test uses the cached
`global_start`, exactly as the first pass of `deleteRange` does.) -/
def touchedHasChild (ns : List SegmentNode) (pos len : Nat) : Bool :=
  0 < len && ns.any (fun n =>
    n.global_start < pos + len && pos < n.global_start + n.length && n.children ≠ 0)

end AudioEditor

namespace AudioEditor.Simple

/-!  The second implementation, `src/SoundSegment_Simple.cpp`.  Its
`SegmentNode` layout, `updateGlobalIndices`, `findSegmentAt`, `read`,
`write`, `getAllSamples` and the occurrence scan of `identify` are
line-for-line the same algorithms as the main implementation (only the
container/string plumbing differs), so those are shared with the main
model; `deleteRange` and `insert` differ and are modelled here. -/

open AudioEditor

/-- Loop of `Simple::deleteRange`: repeatedly `findSegmentAt(cur_pos)` —
where `cur_pos` is initialised to `pos` and never advanced, against stale
global indices — then shift the found segment's tail left and shrink it.
Fuel `len` suffices: each iteration removes at least one sample from
`remaining`. -/
def simpleDelLoop : Nat → List SegmentNode → Nat → Nat → List SegmentNode
  | 0, ns, _, _ => ns
  | fuel + 1, ns, pos, remaining =>
    if remaining = 0 then ns
    else
      match findSegmentAt ns pos with
      | none => ns
      | some (i, local_off) =>
        match ns.drop i with
        | [] => ns  -- unreachable: findSegmentAt returns an in-range index
        | c :: suf =>
          let available := c.length - local_off
          let to_delete := min remaining available
          let c' := { c with
              data := shiftLeft c.data (c.offset + local_off) to_delete (available - to_delete),
              length := c.length - to_delete }
          simpleDelLoop fuel (ns.take i ++ c' :: suf) pos (remaining - to_delete)

/-- `Simple::deleteRange`: same out-of-range guard as the main one, no child
check, then the stale-index deletion loop followed by re-indexing;
it always returns `true` once the guard passes. -/
def deleteRange (s : SoundSegment) (pos len : Nat) : Bool × SoundSegment :=
  if s.total_length < pos + len then (false, s)
  else (true, updateState (simpleDelLoop len s.head pos len))

/-- `Simple::insert`: flatten the source, drop the call when `src_pos` is
past the flattened source, clamp the length, splice the sample lists, then
clear the track and rewrite it from scratch at position `0`. -/
def insert (s : SoundSegment) (src_track : SoundSegment)
    (dest_pos src_pos len : Nat) : SoundSegment :=
  let src_data := getAllSamples src_track
  if src_data.length ≤ src_pos then s
  else
    let actual_len := if src_data.length < src_pos + len then src_data.length - src_pos else len
    let insert_data := (src_data.drop src_pos).take actual_len
    let dest_data := getAllSamples s
    let new_data := dest_data.take dest_pos ++ insert_data ++ dest_data.drop dest_pos
    write emptyTrack new_data 0

end AudioEditor.Simple

namespace AudioEditor

/-- One public mutating call of the API, from the track under edit's point
of view (`loadFromWav` is `write(samples, 0)` on the samples decoded from
the file; `read`, `length` and `identify` are `const`).  The `insert` step
only relates states when the call returns (its source track may be any
track object). -/
inductive Step : SoundSegment → SoundSegment → Prop
  | write (s : SoundSegment) (src : List Int) (pos : Nat) : Step s (write s src pos)
  | del (s : SoundSegment) (pos len : Nat) : Step s (deleteRange s pos len).2
  | ins (s src_track : SoundSegment) (dest_pos src_pos len : Nat) (s' : SoundSegment)
      (h : insert s src_track dest_pos src_pos len = some s') : Step s s'
  | load (s : SoundSegment) (samples : List Int) : Step s (write s samples 0)

/-- Track states reachable from a fresh track by public API calls. -/
def Reachable (s : SoundSegment) : Prop := Relation.ReflTransGen Step emptyTrack s

end AudioEditor

/-! ## Basic facts about windows, flattening and the structural invariant -/

namespace AudioEditor

/-- All windows of the chain fit inside their buffers. -/
def winOK (ns : List SegmentNode) : Bool :=
  ns.all (fun n => decide (n.offset + n.length ≤ n.data.length))

theorem sumLen_append (xs ys : List SegmentNode) :
    sumLen (xs ++ ys) = sumLen xs + sumLen ys := by
  induction xs with
  | nil => simp [sumLen]
  | cons x xs ih => simp [sumLen, ih]; omega

theorem flatten_append (xs ys : List SegmentNode) :
    flatten (xs ++ ys) = flatten xs ++ flatten ys := by
  induction xs with
  | nil => simp [flatten]
  | cons x xs ih => simp [flatten, ih]

theorem length_window_le (n : SegmentNode) : (window n).length ≤ n.length := by
  simp [window]

theorem length_window (n : SegmentNode) (h : n.offset + n.length ≤ n.data.length) :
    (window n).length = n.length := by
  simp [window]; omega

theorem chainIdx_cons {n : SegmentNode} {rest : List SegmentNode} {g : Nat} :
    chainIdx (n :: rest) g = true ↔
      n.global_start = g ∧ n.offset + n.length ≤ n.data.length ∧
        chainIdx rest (g + n.length) = true := by
  simp [chainIdx, Bool.and_assoc, and_assoc]

theorem winOK_cons {n : SegmentNode} {rest : List SegmentNode} :
    winOK (n :: rest) = true ↔
      n.offset + n.length ≤ n.data.length ∧ winOK rest = true := by
  simp [winOK]

theorem allPos_cons {n : SegmentNode} {rest : List SegmentNode} :
    allPos (n :: rest) = true ↔ 0 < n.length ∧ allPos rest = true := by
  simp [allPos]

theorem winOK_of_chainIdx {ns : List SegmentNode} {g : Nat} (h : chainIdx ns g = true) :
    winOK ns = true := by
  induction ns generalizing g with
  | nil => simp [winOK]
  | cons n rest ih =>
    rcases chainIdx_cons.mp h with ⟨_, h2, h3⟩
    exact winOK_cons.mpr ⟨h2, ih h3⟩

theorem length_flatten {ns : List SegmentNode} (h : winOK ns = true) :
    (flatten ns).length = sumLen ns := by
  induction ns with
  | nil => simp [flatten, sumLen]
  | cons n rest ih =>
    rcases winOK_cons.mp h with ⟨h1, h2⟩
    simp [flatten, sumLen, ih h2, length_window n h1]

theorem winOK_append {xs ys : List SegmentNode} :
    winOK (xs ++ ys) = (winOK xs && winOK ys) := by
  simp [winOK, List.all_append]

theorem allPos_append {xs ys : List SegmentNode} :
    allPos (xs ++ ys) = (allPos xs && allPos ys) := by
  simp [allPos, List.all_append]

/-! ### updateGlobalIndices -/

theorem window_updateGI (n : SegmentNode) (g : Nat) :
    window { n with global_start := g } = window n := rfl

theorem flatten_updateGI (ns : List SegmentNode) (g : Nat) :
    flatten (updateGI ns g) = flatten ns := by
  induction ns generalizing g with
  | nil => rfl
  | cons n rest ih => simp [updateGI, flatten, ih, window_updateGI]

theorem sumLen_updateGI (ns : List SegmentNode) (g : Nat) :
    sumLen (updateGI ns g) = sumLen ns := by
  induction ns generalizing g with
  | nil => rfl
  | cons n rest ih => simp [updateGI, sumLen, ih]

theorem winOK_updateGI (ns : List SegmentNode) (g : Nat) :
    winOK (updateGI ns g) = winOK ns := by
  induction ns generalizing g with
  | nil => rfl
  | cons n rest ih => simp [updateGI, winOK] at ih ⊢; rw [ih]

theorem allPos_updateGI (ns : List SegmentNode) (g : Nat) :
    allPos (updateGI ns g) = allPos ns := by
  induction ns generalizing g with
  | nil => rfl
  | cons n rest ih => simp [updateGI, allPos] at ih ⊢; rw [ih]

theorem chainIdx_updateGI {ns : List SegmentNode} (g : Nat) (h : winOK ns = true) :
    chainIdx (updateGI ns g) g = true := by
  induction ns generalizing g with
  | nil => simp [updateGI, chainIdx]
  | cons n rest ih =>
    rcases winOK_cons.mp h with ⟨h1, h2⟩
    exact chainIdx_cons.mpr ⟨rfl, h1, ih _ h2⟩

theorem wf_updateState {ns : List SegmentNode} (hw : winOK ns = true) (hp : allPos ns = true) :
    wf (updateState ns) = true := by
  simp [wf, updateState, chainIdx_updateGI 0 hw, allPos_updateGI, hp, sumLen_updateGI]

theorem updateState_total (ns : List SegmentNode) :
    (updateState ns).total_length = sumLen ns := rfl

theorem updateState_flatten (ns : List SegmentNode) :
    flatten (updateState ns).head = flatten ns := flatten_updateGI ns 0

/-! ### setSlice / shiftLeft -/

theorem setSlice_length {d v : List Int} {a : Nat} (h : a + v.length ≤ d.length) :
    (setSlice d a v).length = d.length := by
  simp [setSlice, List.length_take, List.length_drop]; omega

theorem shiftLeft_length {d : List Int} {a k cnt : Nat} (h : a + k + cnt ≤ d.length) :
    (shiftLeft d a k cnt).length = d.length := by
  simp [shiftLeft, List.length_take, List.length_drop]; omega

theorem take_setSlice_left {d v : List Int} {a : Nat} (hd : a ≤ d.length) :
    (setSlice d a v).take a = d.take a := by
  simp [setSlice]
  rw [List.take_append_eq_append_take, List.take_take]
  have : (d.take a).length = a := by simp [List.length_take]; omega
  simp [this, min_self]

end AudioEditor

/-! ## findSegmentAt -/

namespace AudioEditor

theorem chainIdx_ge {ns : List SegmentNode} {g : Nat} (h : chainIdx ns g = true) :
    ∀ n ∈ ns, g ≤ n.global_start := by
  induction ns generalizing g with
  | nil => simp
  | cons c rest ih =>
    rcases chainIdx_cons.mp h with ⟨h1, _, h3⟩
    intro n hn
    rcases List.mem_cons.mp hn with rfl | hmem
    · omega
    · have := ih h3 n hmem
      omega

theorem chainIdx_end_le {ns : List SegmentNode} {g : Nat} (h : chainIdx ns g = true) :
    ∀ n ∈ ns, n.global_start + n.length ≤ g + sumLen ns := by
  induction ns generalizing g with
  | nil => simp
  | cons c rest ih =>
    rcases chainIdx_cons.mp h with ⟨h1, _, h3⟩
    intro n hn
    rcases List.mem_cons.mp hn with rfl | hmem
    · simp [sumLen]; omega
    · have := ih h3 n hmem
      simp [sumLen]; omega

/-- Shape facts `findSegmentAt` guarantees with no well-formedness
assumptions: the returned index is in range and the found node's cached
range contains `pos`. -/
theorem findSegmentAt_shape {ns : List SegmentNode} {pos i lo : Nat}
    (h : findSegmentAt ns pos = some (i, lo)) :
    ∃ c, ns.drop i = c :: ns.drop (i + 1) ∧ c.global_start ≤ pos ∧
      pos < c.global_start + c.length ∧ lo = pos - c.global_start := by
  induction ns generalizing i with
  | nil => simp [findSegmentAt] at h
  | cons n rest ih =>
    by_cases hc : n.global_start ≤ pos ∧ pos < n.global_start + n.length
    · simp [findSegmentAt, hc] at h
      obtain ⟨hi, hlo⟩ := h
      exact ⟨n, by simp [← hi], by omega, by omega, by omega⟩
    · rw [findSegmentAt] at h
      simp only [hc, if_false, Option.map_eq_some'] at h
      obtain ⟨⟨a, b⟩, hab, heq⟩ := h
      simp only [Prod.mk.injEq] at heq
      obtain ⟨hi, hb⟩ := heq
      subst hb
      obtain ⟨c, hdrop, h1, h2, h3⟩ := ih hab
      refine ⟨c, ?_, h1, h2, h3⟩
      have hi' : i = a + 1 := hi.symm
      subst hi'
      simpa using hdrop

/-- On a well-indexed chain, `findSegmentAt` finds the unique segment whose
range contains an in-bounds `pos`, and the chain decomposes around it. -/
theorem findSegmentAt_spec {ns : List SegmentNode} {g pos : Nat}
    (h : chainIdx ns g = true) (hge : g ≤ pos) (hlt : pos < g + sumLen ns) :
    ∃ pre c suf, ns = pre ++ c :: suf ∧
      findSegmentAt ns pos = some (pre.length, pos - c.global_start) ∧
      c.global_start = g + sumLen pre ∧ c.global_start ≤ pos ∧
      pos < c.global_start + c.length := by
  induction ns generalizing g with
  | nil => simp [sumLen] at hlt; omega
  | cons n rest ih =>
    rcases chainIdx_cons.mp h with ⟨h1, _, h3⟩
    by_cases hc : pos < g + n.length
    · refine ⟨[], n, rest, by simp, ?_, by simp [sumLen, h1], by omega, by omega⟩
      have : n.global_start ≤ pos ∧ pos < n.global_start + n.length := by omega
      simp [findSegmentAt, this]
    · have hge' : g + n.length ≤ pos := by omega
      have hlt' : pos < g + n.length + sumLen rest := by
        simp [sumLen] at hlt; omega
      obtain ⟨pre, c, suf, hsplit, hfind, hgs, hle, hlt2⟩ := ih h3 hge' hlt'
      refine ⟨n :: pre, c, suf, by simp [hsplit], ?_, ?_, hle, hlt2⟩
      · have : ¬(n.global_start ≤ pos ∧ pos < n.global_start + n.length) := by omega
        simp [findSegmentAt, this, hfind]
      · simp [sumLen]; omega

theorem findSegmentAt_none {ns : List SegmentNode} {g pos : Nat}
    (h : chainIdx ns g = true) (hge : g + sumLen ns ≤ pos) :
    findSegmentAt ns pos = none := by
  induction ns generalizing g with
  | nil => simp [findSegmentAt]
  | cons n rest ih =>
    rcases chainIdx_cons.mp h with ⟨h1, _, h3⟩
    simp [sumLen] at hge
    have : ¬(n.global_start ≤ pos ∧ pos < n.global_start + n.length) := by omega
    simp [findSegmentAt, this]
    exact ih h3 (by omega)

end AudioEditor

/-! ## Window surgery -/

namespace AudioEditor

theorem window_take (c : SegmentNode) {lo : Nat} (hlo : lo ≤ c.length) :
    window { c with length := lo } = (window c).take lo := by
  simp [window, List.take_take, min_eq_left hlo]

theorem window_drop (c : SegmentNode) (lo : Nat) :
    window { c with offset := c.offset + lo, length := c.length - lo }
      = (window c).drop lo := by
  simp [window, List.drop_take, List.drop_drop]

theorem chunk_eq_window (c : SegmentNode) {li k : Nat} (h : li + k ≤ c.length) :
    (c.data.drop (c.offset + li)).take k = ((window c).drop li).take k := by
  rw [window, List.drop_take, List.drop_drop, List.take_take,
    min_eq_left (by omega : k ≤ c.length - li)]

theorem chunk_length (c : SegmentNode) {li k : Nat} (h : li + k ≤ c.length)
    (hwin : c.offset + c.length ≤ c.data.length) :
    ((c.data.drop (c.offset + li)).take k).length = k := by
  simp [List.length_take, List.length_drop]; omega

theorem padded_length (l : List Int) (k : Nat) :
    (l.take k ++ List.replicate (k - (l.take k).length) (0 : Int)).length = k := by
  simp [List.length_take]

theorem drop_append_ge {l m : List Int} {n : Nat} (h : l.length ≤ n) :
    (l ++ m).drop n = m.drop (n - l.length) := by
  rw [List.drop_append_eq_append_drop, List.drop_eq_nil_of_le h, List.nil_append]

theorem drop_append_le {l m : List Int} {n : Nat} (h : n ≤ l.length) :
    (l ++ m).drop n = l.drop n ++ m := by
  rw [List.drop_append_eq_append_drop, Nat.sub_eq_zero_of_le h, List.drop_zero]

theorem take_append_ge {l m : List Int} {n : Nat} (h : l.length ≤ n) :
    (l ++ m).take n = l ++ m.take (n - l.length) := by
  rw [List.take_append_eq_append_take, List.take_of_length_le h]

theorem take_append_le {l m : List Int} {n : Nat} (h : n ≤ l.length) :
    (l ++ m).take n = l.take n := by
  rw [List.take_append_eq_append_take, Nat.sub_eq_zero_of_le h, List.take_zero,
    List.append_nil]

theorem window_setSlice (c : SegmentNode) (v : List Int) (lo : Nat)
    (hlo : lo + v.length ≤ c.length) (hwin : c.offset + c.length ≤ c.data.length) :
    window { c with data := setSlice c.data (c.offset + lo) v }
      = (window c).take lo ++ v ++ (window c).drop (lo + v.length) := by
  have hA : (c.data.take (c.offset + lo)).length = c.offset + lo := by
    simp [List.length_take]; omega
  have hdrop : (setSlice c.data (c.offset + lo) v).drop c.offset
      = (c.data.drop c.offset).take lo ++ (v ++ c.data.drop (c.offset + lo + v.length)) := by
    rw [setSlice, List.append_assoc, drop_append_le (by omega : c.offset ≤ (c.data.take (c.offset + lo)).length),
      List.drop_take, Nat.add_sub_cancel_left]
  have hwin_eq : window { c with data := setSlice c.data (c.offset + lo) v }
      = ((setSlice c.data (c.offset + lo) v).drop c.offset).take c.length := rfl
  have h1 : ((c.data.drop c.offset).take lo).length = lo := by
    simp [List.length_take, List.length_drop]; omega
  rw [hwin_eq, hdrop, take_append_ge (by omega : ((c.data.drop c.offset).take lo).length ≤ c.length), h1,
    take_append_ge (by omega : v.length ≤ c.length - lo)]
  have hw1 : (window c).take lo = (c.data.drop c.offset).take lo := by
    rw [window, List.take_take, min_eq_left (by omega : lo ≤ c.length)]
  have hw2 : (window c).drop (lo + v.length)
      = (c.data.drop (c.offset + lo + v.length)).take (c.length - lo - v.length) := by
    rw [window, List.drop_take, List.drop_drop, Nat.add_assoc, Nat.sub_sub]
  rw [hw1, hw2, List.append_assoc]

theorem window_shiftLeft (c : SegmentNode) (lo td : Nat)
    (hlo : lo + td ≤ c.length) (hwin : c.offset + c.length ≤ c.data.length) :
    window { c with
        data := shiftLeft c.data (c.offset + lo) td (c.length - lo - td),
        length := c.length - td }
      = (window c).take lo ++ (window c).drop (lo + td) := by
  set cnt := c.length - lo - td with hcnt
  have hA : (c.data.take (c.offset + lo)).length = c.offset + lo := by
    simp [List.length_take]; omega
  have hdrop : (shiftLeft c.data (c.offset + lo) td cnt).drop c.offset
      = (c.data.drop c.offset).take lo ++ ((c.data.drop (c.offset + lo + td)).take cnt
          ++ c.data.drop (c.offset + lo + cnt)) := by
    rw [shiftLeft, List.append_assoc, drop_append_le (by omega : c.offset ≤ (c.data.take (c.offset + lo)).length),
      List.drop_take, Nat.add_sub_cancel_left]
  have hwin_eq : window { c with
        data := shiftLeft c.data (c.offset + lo) td cnt, length := c.length - td }
      = ((shiftLeft c.data (c.offset + lo) td cnt).drop c.offset).take (c.length - td) := rfl
  have h1 : ((c.data.drop c.offset).take lo).length = lo := by
    simp [List.length_take, List.length_drop]; omega
  have h2 : ((c.data.drop (c.offset + lo + td)).take cnt).length = cnt := by
    simp [List.length_take, List.length_drop]; omega
  rw [hwin_eq, hdrop, take_append_ge (by omega : ((c.data.drop c.offset).take lo).length ≤ c.length - td), h1,
    take_append_ge (by omega : ((c.data.drop (c.offset + lo + td)).take cnt).length ≤ c.length - td - lo), h2]
  have hB : (c.data.drop (c.offset + lo + cnt)).take (c.length - td - lo - cnt) = [] := by
    have : c.length - td - lo - cnt = 0 := by omega
    simp [this]
  rw [hB, List.append_nil]
  have hw1 : (window c).take lo = (c.data.drop c.offset).take lo := by
    rw [window, List.take_take, min_eq_left (by omega : lo ≤ c.length)]
  have hw2 : (window c).drop (lo + td)
      = (c.data.drop (c.offset + lo + td)).take cnt := by
    rw [window, List.drop_take, List.drop_drop, Nat.add_assoc, hcnt, Nat.sub_sub]
  rw [hw1, hw2]

end AudioEditor

/-! ## Read correctness -/

namespace AudioEditor

theorem readLoop_length (ns : List SegmentNode) :
    ∀ (start_pos len copied : Nat) (dest : List Int),
    copied ≤ len → dest.length = len →
    (readLoop ns start_pos len copied dest).length = len := by
  induction ns with
  | nil => intro sp len copied dest _ hd; simpa [readLoop] using hd
  | cons c rest ih =>
    intro sp len copied dest hcl hd
    by_cases h1 : copied < len
    · by_cases h2 : c.global_start ≤ sp ∧ sp < c.global_start + c.length
      · rw [readLoop, if_pos h1, if_pos h2]
        apply ih
        · have : min (len - copied) (c.length - (sp - c.global_start)) ≤ len - copied :=
            min_le_left _ _
          omega
        · rw [setSlice_length]
          · exact hd
          · rw [padded_length]
            have : min (len - copied) (c.length - (sp - c.global_start)) ≤ len - copied :=
              min_le_left _ _
            omega
      · rw [readLoop, if_pos h1, if_neg h2]
        exact ih sp len copied dest hcl hd
    · rw [readLoop, if_neg h1]
      exact hd

theorem read_length (s : SoundSegment) (pos len : Nat) : (read s pos len).length = len := by
  rw [read, readLoop_length] <;> simp

theorem read_len_zero (s : SoundSegment) (pos : Nat) : read s pos 0 = [] := by
  have := read_length s pos 0
  exact List.length_eq_zero.mp this

theorem readLoop_spec (ns : List SegmentNode) :
    ∀ (g start_pos len copied : Nat) (dest : List Int),
    chainIdx ns g = true → dest.length = len → copied ≤ len →
    (copied < len → g ≤ start_pos ∧ start_pos + (len - copied) ≤ g + sumLen ns) →
    readLoop ns start_pos len copied dest
      = dest.take copied ++ ((flatten ns).drop (start_pos - g)).take (len - copied) := by
  induction ns with
  | nil =>
    intro g sp len copied dest _ hd hcl hcov
    rcases Nat.eq_or_lt_of_le hcl with heq | hlt
    · subst heq
      simp [readLoop, flatten, List.take_of_length_le (le_of_eq hd)]
    · exfalso
      have := hcov hlt
      simp [sumLen] at this
      omega
  | cons c rest ih =>
    intro g sp len copied dest hidx hd hcl hcov
    rcases chainIdx_cons.mp hidx with ⟨h1, hwin, h3⟩
    have hwlen : (window c).length = c.length := length_window c hwin
    have hfl : flatten (c :: rest) = window c ++ flatten rest := rfl
    have hsum : sumLen (c :: rest) = c.length + sumLen rest := rfl
    by_cases hlt : copied < len
    · obtain ⟨hg, hbound⟩ := hcov hlt
      by_cases hin : sp < g + c.length
      · -- copy branch
        have hcond : c.global_start ≤ sp ∧ sp < c.global_start + c.length := by omega
        rw [readLoop, if_pos hlt, if_pos hcond]
        simp only [h1]
        set li := sp - g with hli_def
        have hsp : sp = g + li := by omega
        set k := min (len - copied) (c.length - li) with hk_def
        have hliLt : li < c.length := by omega
        have hlik : li + k ≤ c.length := by
          have := min_le_right (len - copied) (c.length - li)
          omega
        have hkc : k ≤ len - copied := min_le_left _ _
        have hkpos : 0 < k := by
          rw [hk_def]
          omega
        have hchunklen : ((c.data.drop (c.offset + li)).take k).length = k :=
          chunk_length c hlik hwin
        rw [hchunklen, Nat.sub_self, List.replicate_zero, List.append_nil]
        set chunk := (c.data.drop (c.offset + li)).take k with hchunk_def
        have hdl : (setSlice dest copied chunk).length = len := by
          rw [setSlice_length (by rw [hchunklen]; omega : copied + chunk.length ≤ dest.length)]
          exact hd
        have hchunk_win : chunk = ((window c).drop li).take k :=
          chunk_eq_window c hlik
        have hwd_len : ((window c).drop li).length = c.length - li := by
          simp [hwlen]
        rw [ih (g + c.length) (sp + k) len (copied + k) _ h3 hdl (by omega)
          (by intro hck; constructor <;> omega)]
        have hdest' : (setSlice dest copied chunk).take (copied + k)
            = dest.take copied ++ chunk := by
          have hlen1 : (dest.take copied).length = copied := by
            simp [List.length_take]; omega
          have hexp : setSlice dest copied chunk
              = dest.take copied ++ (chunk ++ dest.drop (copied + chunk.length)) := by
            simp only [setSlice, List.append_assoc]
          rw [hexp, hchunklen,
            take_append_ge (by omega : (dest.take copied).length ≤ copied + k), hlen1,
            Nat.add_sub_cancel_left,
            take_append_ge (by rw [hchunklen] : chunk.length ≤ k),
            hchunklen, Nat.sub_self, List.take_zero, List.append_nil]
        rw [hdest', hfl, drop_append_le (by omega : li ≤ (window c).length)]
        by_cases hA : c.length - li ≤ len - copied
        · -- the node is consumed up to its end
          have hkA : k = c.length - li := by rw [hk_def]; omega
          have h0 : sp + k - (g + c.length) = 0 := by omega
          rw [h0, List.drop_zero,
            take_append_ge (by rw [hwd_len]; omega : ((window c).drop li).length ≤ len - copied),
            hwd_len]
          have hdw : (window c).drop li = chunk := by
            rw [hchunk_win, hkA, List.take_of_length_le (by rw [hwd_len] : ((window c).drop li).length ≤ c.length - li)]
          rw [hdw]
          have harith : len - copied - (c.length - li) = len - (copied + k) := by omega
          rw [harith, List.append_assoc]
        · -- the request ends inside this node
          have hkB : k = len - copied := by rw [hk_def]; omega
          have hfin : len - (copied + k) = 0 := by omega
          rw [hfin, List.take_zero, List.append_nil,
            take_append_le (by rw [hwd_len]; omega : len - copied ≤ ((window c).drop li).length),
            ← hkB, ← hchunk_win]
      · -- skip branch: the running position is past this segment
        have hcond : ¬(c.global_start ≤ sp ∧ sp < c.global_start + c.length) := by omega
        rw [readLoop, if_pos hlt, if_neg hcond,
          ih (g + c.length) sp len copied dest h3 hd hcl
            (by intro hck; constructor <;> omega),
          hfl, drop_append_ge (by omega : (window c).length ≤ sp - g), hwlen]
        rw [show sp - g - c.length = sp - (g + c.length) from by omega]
    · rw [readLoop, if_neg hlt]
      have heq : copied = len := by omega
      subst heq
      simp [List.take_of_length_le (le_of_eq hd)]

end AudioEditor

/-! ## Read corollaries and write correctness -/

namespace AudioEditor

theorem wf_iff {s : SoundSegment} :
    wf s = true ↔ chainIdx s.head 0 = true ∧ allPos s.head = true ∧
      s.total_length = sumLen s.head := by
  simp [wf, and_assoc]

theorem read_spec {s : SoundSegment} {pos len : Nat} (hidx : chainIdx s.head 0 = true)
    (hr : pos + len ≤ sumLen s.head) :
    read s pos len = ((flatten s.head).drop pos).take len := by
  rw [read, readLoop_spec s.head 0 pos len 0 _ hidx (by simp) (by omega)
    (by intro _; constructor <;> omega)]
  simp

theorem getAllSamples_flatten {s : SoundSegment} (hidx : chainIdx s.head 0 = true)
    (htot : s.total_length = sumLen s.head) :
    getAllSamples s = flatten s.head := by
  rw [getAllSamples, read_spec hidx (by omega), List.drop_zero, htot,
    List.take_of_length_le (le_of_eq (length_flatten (winOK_of_chainIdx hidx)))]

theorem getAllSamples_wf {s : SoundSegment} (h : wf s = true) :
    getAllSamples s = flatten s.head := by
  rcases wf_iff.mp h with ⟨h1, _, h3⟩
  exact getAllSamples_flatten h1 h3

/-- Every chain segment keeps `children = 0`. -/
def chainNoChild (ns : List SegmentNode) : Bool := ns.all (fun n => n.children = 0)

theorem chainNoChild_cons {n : SegmentNode} {rest : List SegmentNode} :
    chainNoChild (n :: rest) = true ↔ n.children = 0 ∧ chainNoChild rest = true := by
  simp [chainNoChild]

theorem chainNoChild_append {xs ys : List SegmentNode} :
    chainNoChild (xs ++ ys) = (chainNoChild xs && chainNoChild ys) := by
  simp [chainNoChild, List.all_append]

theorem chainNoChild_updateGI (ns : List SegmentNode) (g : Nat) :
    chainNoChild (updateGI ns g) = chainNoChild ns := by
  induction ns generalizing g with
  | nil => rfl
  | cons n rest ih => simp [updateGI, chainNoChild] at ih ⊢; rw [ih]

theorem writeLoop_sumLen (ns : List SegmentNode) :
    ∀ (src : List Int) (gi si remaining : Nat),
    sumLen (writeLoop ns src gi si remaining) = sumLen ns := by
  induction ns with
  | nil => intro src gi si remaining; rfl
  | cons c rest ih =>
    intro src gi si remaining
    by_cases h1 : 0 < remaining
    · by_cases h2 : c.global_start ≤ gi ∧ gi < c.global_start + c.length
      · rw [writeLoop, if_pos h1, if_pos h2]
        simp only [sumLen, ih]
      · rw [writeLoop, if_pos h1, if_neg h2]
        simp only [sumLen, ih]
    · rw [writeLoop, if_neg h1]

theorem writeLoop_allPos (ns : List SegmentNode) :
    ∀ (src : List Int) (gi si remaining : Nat),
    allPos (writeLoop ns src gi si remaining) = allPos ns := by
  induction ns with
  | nil => intro src gi si remaining; rfl
  | cons c rest ih =>
    intro src gi si remaining
    by_cases h1 : 0 < remaining
    · by_cases h2 : c.global_start ≤ gi ∧ gi < c.global_start + c.length
      · rw [writeLoop, if_pos h1, if_pos h2]
        simp only [allPos, List.all_cons] at ih ⊢
        rw [ih]
      · rw [writeLoop, if_pos h1, if_neg h2]
        simp only [allPos, List.all_cons] at ih ⊢
        rw [ih]
    · rw [writeLoop, if_neg h1]

theorem writeLoop_noChild (ns : List SegmentNode) :
    ∀ (src : List Int) (gi si remaining : Nat),
    chainNoChild (writeLoop ns src gi si remaining) = chainNoChild ns := by
  induction ns with
  | nil => intro src gi si remaining; rfl
  | cons c rest ih =>
    intro src gi si remaining
    by_cases h1 : 0 < remaining
    · by_cases h2 : c.global_start ≤ gi ∧ gi < c.global_start + c.length
      · rw [writeLoop, if_pos h1, if_pos h2]
        simp only [chainNoChild, List.all_cons] at ih ⊢
        rw [ih]
      · rw [writeLoop, if_pos h1, if_neg h2]
        simp only [chainNoChild, List.all_cons] at ih ⊢
        rw [ih]
    · rw [writeLoop, if_neg h1]

theorem writeLoop_chainIdx (ns : List SegmentNode) :
    ∀ (g : Nat) (src : List Int) (gi si remaining : Nat),
    chainIdx ns g = true →
    chainIdx (writeLoop ns src gi si remaining) g = true := by
  induction ns with
  | nil => intro g src gi si remaining h; exact h
  | cons c rest ih =>
    intro g src gi si remaining h
    rcases chainIdx_cons.mp h with ⟨h1, hwin, h3⟩
    by_cases hr : 0 < remaining
    · by_cases h2 : c.global_start ≤ gi ∧ gi < c.global_start + c.length
      · rw [writeLoop, if_pos hr, if_pos h2]
        refine chainIdx_cons.mpr ⟨h1, ?_, ih _ src _ _ _ h3⟩
        have hlo : gi - c.global_start < c.length := by omega
        have hk : min remaining (c.length - (gi - c.global_start)) ≤
            c.length - (gi - c.global_start) := min_le_right _ _
        rw [setSlice_length]
        · exact hwin
        · rw [padded_length]
          omega
      · rw [writeLoop, if_pos hr, if_neg h2]
        exact chainIdx_cons.mpr ⟨h1, hwin, ih _ src _ _ _ h3⟩
    · rw [writeLoop, if_neg hr]
      exact h

end AudioEditor

namespace AudioEditor

theorem writeLoop_flatten (ns : List SegmentNode) :
    ∀ (g : Nat) (src : List Int) (gi si remaining : Nat),
    chainIdx ns g = true → si + remaining ≤ src.length →
    (0 < remaining → g ≤ gi ∧ gi + remaining ≤ g + sumLen ns) →
    flatten (writeLoop ns src gi si remaining)
      = (flatten ns).take (gi - g)
        ++ ((src.drop si).take remaining ++ (flatten ns).drop (gi - g + remaining)) := by
  induction ns with
  | nil =>
    intro g src gi si remaining _ _ hcov
    rcases Nat.eq_zero_or_pos remaining with hz | hp
    · subst hz; simp [writeLoop, flatten]
    · exfalso; have := hcov hp; simp [sumLen] at this; omega
  | cons c rest ih =>
    intro g src gi si remaining hidx hsrc hcov
    rcases chainIdx_cons.mp hidx with ⟨h1, hwin, h3⟩
    have hwlen : (window c).length = c.length := length_window c hwin
    have hfl : flatten (c :: rest) = window c ++ flatten rest := rfl
    have hsum : sumLen (c :: rest) = c.length + sumLen rest := rfl
    by_cases hr : 0 < remaining
    · obtain ⟨hg, hbound⟩ := hcov hr
      by_cases hin : gi < g + c.length
      · -- copy branch
        have hcond : c.global_start ≤ gi ∧ gi < c.global_start + c.length := by omega
        rw [writeLoop, if_pos hr, if_pos hcond]
        simp only [h1]
        set lo := gi - g with hlo_def
        have hgi : gi = g + lo := by omega
        set k := min remaining (c.length - lo) with hk_def
        have hloLt : lo < c.length := by omega
        have hlok : lo + k ≤ c.length := by
          have := min_le_right remaining (c.length - lo)
          omega
        have hkr : k ≤ remaining := min_le_left _ _
        have hkpos : 0 < k := by rw [hk_def]; omega
        have hchunklen : ((src.drop si).take k).length = k := by
          simp [List.length_take, List.length_drop]
          omega
        rw [hchunklen, Nat.sub_self, List.replicate_zero, List.append_nil]
        set chunk := (src.drop si).take k with hchunk_def
        have hwnode : window { c with data := setSlice c.data (c.offset + lo) chunk }
            = (window c).take lo ++ chunk ++ (window c).drop (lo + chunk.length) :=
          window_setSlice c chunk lo (by rw [hchunklen]; omega) hwin
        rw [flatten]
        rw [show window ⟨setSlice c.data (c.offset + lo) chunk, c.offset, c.length, g, c.children⟩
            = window { c with data := setSlice c.data (c.offset + lo) chunk } from rfl]
        rw [hwnode, hchunklen,
          ih (g + c.length) src (gi + k) (si + k) (remaining - k) h3 (by omega)
            (by intro hck; constructor <;> omega)]
        rw [hfl, take_append_le (by omega : lo ≤ (window c).length)]
        by_cases hA : c.length - lo ≤ remaining
        · -- this segment is filled to its end
          have hkA : k = c.length - lo := by rw [hk_def]; omega
          have h0 : gi + k - (g + c.length) = 0 := by omega
          have hwd : (window c).drop (lo + k) = [] := by
            apply List.drop_eq_nil_of_le
            rw [hwlen]; omega
          rw [h0, List.take_zero, List.nil_append, hwd, List.append_nil,
            drop_append_ge (by rw [hwlen]; omega : (window c).length ≤ lo + remaining), hwlen]
          have hsplit : (src.drop si).take remaining
              = chunk ++ (src.drop (si + k)).take (remaining - k) := by
            have hdd : src.drop (si + k) = (src.drop si).drop k := (List.drop_drop k si src).symm
            rw [hchunk_def, hdd, ← List.take_add]
            congr 1
            omega
          rw [hsplit]
          have harith : lo + remaining - c.length = remaining - k := by omega
          rw [harith, Nat.zero_add]
          simp [List.append_assoc]
        · -- the payload ends inside this segment
          have hkB : k = remaining := by rw [hk_def]; omega
          have hrem : remaining - k = 0 := by omega
          rw [hrem, List.take_zero, List.nil_append, Nat.add_zero, List.take_append_drop,
            drop_append_le (by rw [hwlen]; omega : lo + remaining ≤ (window c).length),
            ← hkB, ← hchunk_def]
          simp [List.append_assoc]
      · -- skip branch
        have hcond : ¬(c.global_start ≤ gi ∧ gi < c.global_start + c.length) := by omega
        rw [writeLoop, if_pos hr, if_neg hcond, flatten,
          ih (g + c.length) src gi si remaining h3 hsrc
            (by intro hck; constructor <;> omega),
          hfl, take_append_ge (by rw [hwlen]; omega : (window c).length ≤ gi - g), hwlen,
          drop_append_ge (by rw [hwlen]; omega : (window c).length ≤ gi - g + remaining), hwlen]
        rw [show gi - g - c.length = gi - (g + c.length) from by omega,
          show gi - g + remaining - c.length = gi - (g + c.length) + remaining from by omega,
          List.append_assoc]
    · rw [writeLoop, if_neg hr]
      have hz : remaining = 0 := by omega
      subst hz
      simp [List.take_append_drop]

end AudioEditor

namespace AudioEditor

theorem chainIdx_getLast {ns : List SegmentNode} :
    ∀ {g : Nat} {last : SegmentNode}, chainIdx ns g = true → ns.getLast? = some last →
    last.global_start + last.length = g + sumLen ns := by
  induction ns with
  | nil => intro g last _ hl; simp at hl
  | cons n rest ih =>
    intro g last hidx hl
    rcases chainIdx_cons.mp hidx with ⟨h1, _, h3⟩
    cases rest with
    | nil =>
      simp [List.getLast?] at hl
      subst hl
      simp [sumLen]; omega
    | cons m ms =>
      have hl' : (m :: ms).getLast? = some last := by
        simpa [List.getLast?_cons_cons] using hl
      have := ih h3 hl'
      simp [sumLen] at this ⊢
      omega

theorem extend_spec {ns : List SegmentNode} {ep : Nat} (hidx : chainIdx ns 0 = true)
    (hlt : sumLen ns < ep) :
    flatten (extendChain ns ep) = flatten ns ++ List.replicate (ep - sumLen ns) 0
    ∧ sumLen (extendChain ns ep) = ep
    ∧ winOK (extendChain ns ep) = true
    ∧ (allPos ns = true → allPos (extendChain ns ep) = true)
    ∧ (chainNoChild ns = true → chainNoChild (extendChain ns ep) = true) := by
  cases hl : ns.getLast? with
  | none =>
    have hnil : ns = [] := List.getLast?_eq_none_iff.mp hl
    subst hnil
    simp [sumLen] at hlt
    refine ⟨?_, ?_, ?_, ?_, ?_⟩ <;>
      simp [extendChain, hl, flatten, window, sumLen, winOK, allPos, chainNoChild, hlt]
  | some last =>
    have hend : last.global_start + last.length = sumLen ns := by
      simpa using chainIdx_getLast hidx hl
    have hcondlt : last.global_start + last.length < ep := by omega
    have hext : extendChain ns ep
        = ns ++ [⟨List.replicate (ep - (last.global_start + last.length)) 0, 0,
            ep - (last.global_start + last.length), last.global_start + last.length, 0⟩] := by
      simp [extendChain, hl, hcondlt]
    rw [hext, hend]
    have hwnew : window ⟨List.replicate (ep - sumLen ns) 0, 0, ep - sumLen ns, sumLen ns, 0⟩
        = List.replicate (ep - sumLen ns) 0 := by
      simp [window]
    refine ⟨?_, ?_, ?_, ?_, ?_⟩
    · rw [flatten_append]
      simp [flatten, hwnew]
    · rw [sumLen_append]
      simp [sumLen]; omega
    · rw [winOK_append, winOK_of_chainIdx hidx]
      simp [winOK]
    · intro hp
      rw [allPos_append, hp]
      simp [allPos]; omega
    · intro hp
      rw [chainNoChild_append, hp]
      simp [chainNoChild]

theorem chainNoChild_extendChain {ns : List SegmentNode} (ep : Nat)
    (h : chainNoChild ns = true) : chainNoChild (extendChain ns ep) = true := by
  cases hl : ns.getLast? with
  | none => simp [extendChain, hl, chainNoChild]
  | some last =>
    by_cases hc : last.global_start + last.length < ep
    · simp only [extendChain, hl, if_pos hc]
      rw [chainNoChild_append, h]
      simp [chainNoChild]
    · simpa [extendChain, hl, hc] using h

end AudioEditor

namespace AudioEditor

/-- Master specification of `write` on a well-formed track with a non-empty
payload: the result is well-formed, the new total length is the maximum of
the old one and `pos + |src|`, and the contents are the old contents
(zero-padded up to `pos + |src|` when extension happens) with `src`
overwriting the range `[pos, pos + |src|)`. -/
theorem write_spec {s : SoundSegment} (src : List Int) (pos : Nat) (hwf : wf s = true)
    (hne : src ≠ []) :
    wf (write s src pos) = true
    ∧ (write s src pos).total_length = max s.total_length (pos + src.length)
    ∧ flatten (write s src pos).head
        = (flatten s.head ++ List.replicate (pos + src.length - s.total_length) 0).take pos
          ++ (src
            ++ (flatten s.head ++ List.replicate (pos + src.length - s.total_length) 0).drop
              (pos + src.length)) := by
  rcases wf_iff.mp hwf with ⟨hidx, hpos, htot⟩
  have hlen0 : src.length ≠ 0 := by
    intro h
    exact hne (List.length_eq_zero.mp h)
  set ep := pos + src.length with hep
  set pad := flatten s.head ++ List.replicate (ep - s.total_length) 0 with hpad
  -- facts about the (possibly extended) intermediate chain s1
  have hs1 : ∀ s1 : SoundSegment,
      s1 = (if s.total_length < ep then updateState (extendChain s.head ep) else s) →
      chainIdx s1.head 0 = true ∧ allPos s1.head = true ∧
        s1.total_length = sumLen s1.head ∧ flatten s1.head = pad ∧
        sumLen s1.head = max s.total_length ep := by
    intro s1 hs1e
    by_cases hc : s.total_length < ep
    · rw [if_pos hc] at hs1e
      obtain ⟨hfl, hsum, hwink, hap, _⟩ := extend_spec hidx (by omega : sumLen s.head < ep)
      rw [hs1e]
      refine ⟨chainIdx_updateGI 0 hwink, ?_, ?_, ?_, ?_⟩
      · rw [updateState, allPos_updateGI]
        exact hap hpos
      · simp [updateState, sumLen_updateGI]
      · rw [updateState_flatten, hfl, hpad, htot]
      · simp [updateState, sumLen_updateGI, hsum]
        omega
    · rw [if_neg hc] at hs1e
      rw [hs1e]
      have hz : ep - s.total_length = 0 := by omega
      refine ⟨hidx, hpos, htot, ?_, by omega⟩
      rw [hpad, hz, List.replicate_zero, List.append_nil]
  obtain ⟨h1, h2, h3, h4, h5⟩ := hs1 _ rfl
  have hwrite : write s src pos
      = ⟨writeLoop (if s.total_length < ep then updateState (extendChain s.head ep)
          else s).head src pos 0 src.length,
        (if s.total_length < ep then updateState (extendChain s.head ep)
          else s).total_length⟩ := by
    rw [write, if_neg hlen0]
  rw [hwrite]
  refine ⟨?_, ?_, ?_⟩
  · apply wf_iff.mpr
    refine ⟨writeLoop_chainIdx _ 0 src pos 0 src.length h1, ?_, ?_⟩
    · rw [writeLoop_allPos]
      exact h2
    · dsimp only
      rw [writeLoop_sumLen]
      omega
  · dsimp only
    omega
  · dsimp only
    rw [writeLoop_flatten _ 0 src pos 0 src.length h1 (by omega)
      (by intro _; constructor <;> omega), h4]
    simp

end AudioEditor

/-! ## Deletion -/

namespace AudioEditor

theorem chainIdx_append_iff {pre suf : List SegmentNode} {g : Nat} :
    chainIdx (pre ++ suf) g = true ↔
      chainIdx pre g = true ∧ chainIdx suf (g + sumLen pre) = true := by
  induction pre generalizing g with
  | nil => simp [chainIdx, sumLen]
  | cons n rest ih =>
    rw [List.cons_append, chainIdx_cons, chainIdx_cons, ih]
    constructor
    · rintro ⟨a, b, c, d⟩
      refine ⟨⟨a, b, c⟩, ?_⟩
      have : g + n.length + sumLen rest = g + sumLen (n :: rest) := by
        simp [sumLen]; omega
      rwa [this] at d
    · rintro ⟨⟨a, b, c⟩, d⟩
      refine ⟨a, b, c, ?_⟩
      have : g + sumLen (n :: rest) = g + n.length + sumLen rest := by
        simp [sumLen]; omega
      rwa [this] at d

theorem deleteLoop_flatten (ns : List SegmentNode) :
    ∀ (to_delete lo : Nat),
    winOK ns = true →
    lo + to_delete ≤ sumLen ns →
    (∀ c, ns.head? = some c → lo ≤ c.length) →
    flatten (deleteLoop ns to_delete lo)
      = (flatten ns).take lo ++ (flatten ns).drop (lo + to_delete) := by
  induction ns with
  | nil =>
    intro td lo _ hb _
    simp [sumLen] at hb
    simp [deleteLoop, flatten, hb]
  | cons c rest ih =>
    intro td lo hwin hb hlo
    rcases winOK_cons.mp hwin with ⟨hw1, hw2⟩
    have hwlen : (window c).length = c.length := length_window c hw1
    have hloc : lo ≤ c.length := hlo c rfl
    have hfl : flatten (c :: rest) = window c ++ flatten rest := rfl
    have hsum : sumLen (c :: rest) = c.length + sumLen rest := rfl
    by_cases hz : td = 0
    · subst hz
      rw [deleteLoop, if_pos rfl, Nat.add_zero, List.take_append_drop]
    · rw [deleteLoop, if_neg hz]
      by_cases hpart : td < c.length - lo
      · rw [if_pos hpart, flatten,
          window_shiftLeft c lo td (by omega) hw1,
          hfl, take_append_le (by omega : lo ≤ (window c).length),
          drop_append_le (by omega : lo + td ≤ (window c).length),
          List.append_assoc]
      · rw [if_neg hpart]
        by_cases hlz : lo = 0
        · rw [if_pos hlz]
          subst hlz
          rw [ih (td - (c.length - 0)) 0 hw2 (by simp [sumLen] at hb ⊢; omega)
            (by intro c' _; omega)]
          simp only [Nat.zero_add, List.take_zero, List.nil_append, Nat.sub_zero]
          rw [hfl, drop_append_ge (by omega : (window c).length ≤ td), hwlen]
        · rw [if_neg hlz, flatten, window_take c hloc,
            ih (td - (c.length - lo)) 0 hw2 (by simp [sumLen] at hb ⊢; omega)
              (by intro c' _; omega)]
          simp only [List.take_zero, List.nil_append, Nat.zero_add]
          rw [hfl, take_append_le (by omega : lo ≤ (window c).length),
            drop_append_ge (by omega : (window c).length ≤ lo + td), hwlen]
          rw [show lo + td - c.length = td - (c.length - lo) from by omega]

theorem allPos_mem {ns : List SegmentNode} (h : allPos ns = true) :
    ∀ n ∈ ns, 0 < n.length := by
  simpa [allPos, List.all_eq_true] using h

theorem allPos_head {ns : List SegmentNode} (h : allPos ns = true) :
    ∀ c, ns.head? = some c → 0 < c.length := by
  intro c hc
  cases ns with
  | nil => simp at hc
  | cons d ds =>
    simp at hc
    subst hc
    exact (allPos_cons.mp h).1

theorem deleteLoop_struct (ns : List SegmentNode) :
    ∀ (to_delete lo : Nat),
    winOK ns = true → allPos ns = true →
    (∀ c, ns.head? = some c → lo ≤ c.length) →
    winOK (deleteLoop ns to_delete lo) = true
    ∧ allPos (deleteLoop ns to_delete lo) = true
    ∧ (chainNoChild ns = true → chainNoChild (deleteLoop ns to_delete lo) = true) := by
  induction ns with
  | nil => intro td lo _ _ _; simp [deleteLoop, winOK, allPos, chainNoChild]
  | cons c rest ih =>
    intro td lo hwin hap hlo
    rcases winOK_cons.mp hwin with ⟨hw1, hw2⟩
    rcases allPos_cons.mp hap with ⟨hp1, hp2⟩
    have hloc : lo ≤ c.length := hlo c rfl
    by_cases hz : td = 0
    · subst hz
      rw [deleteLoop, if_pos rfl]
      exact ⟨hwin, hap, fun h => h⟩
    · rw [deleteLoop, if_neg hz]
      by_cases hpart : td < c.length - lo
      · rw [if_pos hpart]
        refine ⟨?_, ?_, ?_⟩
        · apply winOK_cons.mpr
          refine ⟨?_, hw2⟩
          dsimp only
          rw [shiftLeft_length (by omega : c.offset + lo + td + (c.length - lo - td)
            ≤ c.data.length)]
          omega
        · apply allPos_cons.mpr
          exact ⟨by dsimp only; omega, hp2⟩
        · intro h
          rcases chainNoChild_cons.mp h with ⟨h1, h2⟩
          exact chainNoChild_cons.mpr ⟨h1, h2⟩
      · rw [if_neg hpart]
        have hrec := ih (td - (c.length - lo)) 0 hw2 hp2 (by intro c' _; omega)
        by_cases hlz : lo = 0
        · rw [if_pos hlz]
          exact ⟨hrec.1, hrec.2.1, fun h => hrec.2.2 (chainNoChild_cons.mp h).2⟩
        · rw [if_neg hlz]
          refine ⟨?_, ?_, ?_⟩
          · apply winOK_cons.mpr
            refine ⟨by dsimp only; omega, hrec.1⟩
          · apply allPos_cons.mpr
            exact ⟨by dsimp only; omega, hrec.2.1⟩
          · intro h
            rcases chainNoChild_cons.mp h with ⟨h1, h2⟩
            exact chainNoChild_cons.mpr ⟨h1, hrec.2.2 h2⟩

theorem checkPass_noChild (ns : List SegmentNode) :
    ∀ (tc lo : Nat), chainNoChild ns = true → checkPass ns tc lo = false := by
  induction ns with
  | nil => intro tc lo _; rfl
  | cons c rest ih =>
    intro tc lo h
    rcases chainNoChild_cons.mp h with ⟨h1, h2⟩
    by_cases hz : tc = 0
    · rw [checkPass, if_pos hz]
    · rw [checkPass, if_neg hz, if_neg (by omega : ¬c.children ≠ 0)]
      by_cases hgt : tc > c.length - lo
      · rw [if_pos hgt]
        exact ih _ 0 h2
      · rw [if_neg hgt]

/-- On a well-formed chain whose nodes start at `g`, the first pass fails
exactly when some node overlapping `[g + lo, g + lo + tc)` has a live
child. -/
theorem checkPass_iff (ns : List SegmentNode) :
    ∀ (g tc lo : Nat), chainIdx ns g = true → allPos ns = true →
    (∀ c, ns.head? = some c → lo < c.length) →
    (checkPass ns tc lo = true ↔
      0 < tc ∧ ∃ n ∈ ns, n.global_start < g + lo + tc ∧
        g + lo < n.global_start + n.length ∧ n.children ≠ 0) := by
  induction ns with
  | nil =>
    intro g tc lo _ _ _
    simp [checkPass]
  | cons c rest ih =>
    intro g tc lo hidx hap hlo
    rcases chainIdx_cons.mp hidx with ⟨h1, _, h3⟩
    rcases allPos_cons.mp hap with ⟨hp1, hp2⟩
    have hloc : lo < c.length := hlo c rfl
    by_cases hz : tc = 0
    · subst hz
      rw [checkPass, if_pos rfl]
      simp
    · rw [checkPass, if_neg hz]
      by_cases hch : c.children ≠ 0
      · rw [if_pos hch]
        simp only [true_iff]
        exact ⟨by omega, c, List.mem_cons_self c rest, by omega, by omega, hch⟩
      · rw [if_neg hch]
        have hcnot : ¬(c.global_start < g + lo + tc ∧ g + lo < c.global_start + c.length
            ∧ c.children ≠ 0) := by
          intro h
          exact hch h.2.2
        by_cases hgt : tc > c.length - lo
        · rw [if_pos hgt,
            ih (g + c.length) (tc - (c.length - lo)) 0 h3 hp2 (allPos_head hp2)]
          constructor
          · rintro ⟨htc', n, hn, ha1, ha2, ha3⟩
            refine ⟨by omega, n, List.mem_cons_of_mem _ hn, by omega, ?_, ha3⟩
            have hge := chainIdx_ge h3 n hn
            have hlen := allPos_mem hp2 n hn
            omega
          · rintro ⟨htc, n, hn, hb1, hb2, hb3⟩
            rcases List.mem_cons.mp hn with rfl | hmem
            · exact absurd hb3 hch
            · refine ⟨by omega, n, hmem, by omega, ?_, hb3⟩
              have hge := chainIdx_ge h3 n hmem
              have hlen := allPos_mem hp2 n hmem
              omega
        · rw [if_neg hgt]
          constructor
          · intro h
            simp at h
          · rintro ⟨htc, n, hn, hover1, hover2, hchn⟩
            exfalso
            rcases List.mem_cons.mp hn with rfl | hmem
            · exact hch hchn
            · have hge := chainIdx_ge h3 n hmem
              omega

end AudioEditor

namespace AudioEditor

theorem touched_iff {ns : List SegmentNode} {pos len : Nat} :
    touchedHasChild ns pos len = true ↔
      0 < len ∧ ∃ n ∈ ns, n.global_start < pos + len ∧
        pos < n.global_start + n.length ∧ n.children ≠ 0 := by
  simp [touchedHasChild, List.any_eq_true, and_assoc]

theorem checkPass_eq_touched {s : SoundSegment} {pos len : Nat}
    (hwf : wf s = true)
    {pre : List SegmentNode} {c : SegmentNode} {suf : List SegmentNode}
    (hsplit : s.head = pre ++ c :: suf) (hgs : c.global_start = sumLen pre)
    (hcle : c.global_start ≤ pos) (hclt : pos < c.global_start + c.length) :
    (checkPass (c :: suf) len (pos - c.global_start) = true)
      ↔ (touchedHasChild s.head pos len = true) := by
  rcases wf_iff.mp hwf with ⟨hidx, hap, _⟩
  rw [hsplit] at hidx hap
  obtain ⟨hpreIdx, hsufIdx⟩ := chainIdx_append_iff.mp hidx
  have hapSplit := @allPos_append pre (c :: suf)
  rw [hap] at hapSplit
  obtain ⟨hapPre, hapSuf⟩ := (Bool.and_eq_true _ _).mp hapSplit.symm
  rw [checkPass_iff (c :: suf) (0 + sumLen pre) len (pos - c.global_start) hsufIdx hapSuf
    (by intro c' hc'; simp at hc'; subst hc'; omega), touched_iff, hsplit]
  constructor
  · rintro ⟨htc, n, hn, o1, o2, hch⟩
    refine ⟨htc, n, ?_, by omega, by omega, hch⟩
    exact List.mem_append_right pre hn
  · rintro ⟨htc, n, hn, o1, o2, hch⟩
    rcases List.mem_append.mp hn with hmem | hmem
    · exfalso
      have := chainIdx_end_le hpreIdx n hmem
      omega
    · exact ⟨htc, n, hmem, by omega, by omega, hch⟩

/-- Master specification of a successful `deleteRange` on a well-formed
track: in-bounds range, no touched segment with live children.  The call
returns `true`, the contents lose exactly `[pos, pos+len)`, the total length
shrinks by `len`, and well-formedness is preserved. -/
theorem deleteRange_spec {s : SoundSegment} {pos len : Nat} (hwf : wf s = true)
    (hnc : touchedHasChild s.head pos len = false) (hle : pos + len ≤ s.total_length) :
    (deleteRange s pos len).1 = true
    ∧ getAllSamples (deleteRange s pos len).2
        = (getAllSamples s).take pos ++ (getAllSamples s).drop (pos + len)
    ∧ (deleteRange s pos len).2.total_length = s.total_length - len
    ∧ wf (deleteRange s pos len).2 = true := by
  rcases wf_iff.mp hwf with ⟨hidx, hap, htot⟩
  have hwinall : winOK s.head = true := winOK_of_chainIdx hidx
  have hflen : (flatten s.head).length = sumLen s.head := length_flatten hwinall
  have hga : getAllSamples s = flatten s.head := getAllSamples_wf hwf
  have hnlt : ¬ (s.total_length < pos + len) := by omega
  by_cases hpos : pos < sumLen s.head
  · obtain ⟨pre, c, suf, hsplit, hfind, hgs, hcle, hclt⟩ :=
      findSegmentAt_spec hidx (Nat.zero_le pos) (by simpa using hpos)
    have hgs' : c.global_start = sumLen pre := by simpa using hgs
    set lo := pos - c.global_start with hlo_def
    have hdropEq : s.head.drop pre.length = c :: suf := by
      rw [hsplit]; exact List.drop_left pre (c :: suf)
    have htakeEq : s.head.take pre.length = pre := by
      rw [hsplit]; exact List.take_left pre (c :: suf)
    have hcp : checkPass (c :: suf) len lo = false := by
      cases hcpv : checkPass (c :: suf) len lo
      · rfl
      · exfalso
        have := (checkPass_eq_touched hwf hsplit hgs' hcle hclt).mp hcpv
        rw [hnc] at this
        exact Bool.false_ne_true this
    have hred : deleteRange s pos len
        = (true, updateState (pre ++ deleteLoop (c :: suf) len lo)) := by
      rw [deleteRange, if_neg hnlt, hfind]
      simp only [hdropEq, htakeEq, hcp, Bool.false_eq_true, if_false]
    rw [hred]
    -- facts about the chains around the split
    rw [hsplit] at hidx hap hwinall
    obtain ⟨hpreIdx, hsufIdx⟩ := chainIdx_append_iff.mp hidx
    have hapSplit := @allPos_append pre (c :: suf)
    rw [hap] at hapSplit
    obtain ⟨hapPre, hapSuf⟩ := (Bool.and_eq_true _ _).mp hapSplit.symm
    have hwinSplit := @winOK_append pre (c :: suf)
    rw [hwinall] at hwinSplit
    obtain ⟨hwinPre, hwinSuf⟩ := (Bool.and_eq_true _ _).mp hwinSplit.symm
    have hf2len : (flatten (c :: suf)).length = sumLen (c :: suf) := length_flatten hwinSuf
    have hfprelen : (flatten pre).length = sumLen pre := length_flatten hwinPre
    have hsumsplit : sumLen s.head = sumLen pre + sumLen (c :: suf) := by
      rw [hsplit, sumLen_append]
    have hlolen : lo + len ≤ sumLen (c :: suf) := by
      have : c.length ≤ sumLen (c :: suf) := by simp [sumLen]
      omega
    have hloc : ∀ c' , (c :: suf).head? = some c' → lo ≤ c'.length := by
      intro c' hc'; simp at hc'; subst hc'; omega
    have hdl := deleteLoop_flatten (c :: suf) len lo hwinSuf hlolen hloc
    obtain ⟨hdlWin, hdlPos, _⟩ := deleteLoop_struct (c :: suf) len lo hwinSuf hapSuf hloc
    have hwinNew : winOK (pre ++ deleteLoop (c :: suf) len lo) = true := by
      rw [winOK_append, hwinPre, hdlWin]; rfl
    have hapNew : allPos (pre ++ deleteLoop (c :: suf) len lo) = true := by
      rw [allPos_append, hapPre, hdlPos]; rfl
    have hwf' : wf (updateState (pre ++ deleteLoop (c :: suf) len lo)) = true :=
      wf_updateState hwinNew hapNew
    have hflatNew : flatten (pre ++ deleteLoop (c :: suf) len lo)
        = flatten pre ++ ((flatten (c :: suf)).take lo
            ++ (flatten (c :: suf)).drop (lo + len)) := by
      rw [flatten_append, hdl]
    refine ⟨rfl, ?_, ?_, hwf'⟩
    · rw [getAllSamples_wf hwf', updateState_flatten, hflatNew, hga, hsplit, flatten_append,
        take_append_ge (by omega : (flatten pre).length ≤ pos),
        drop_append_ge (by omega : (flatten pre).length ≤ pos + len), hfprelen,
        List.append_assoc]
      rw [show pos - sumLen pre = lo from by omega,
        show pos + len - sumLen pre = lo + len from by omega]
    · rw [updateState_total, sumLen_append]
      have hdlSum : sumLen (deleteLoop (c :: suf) len lo)
          = lo + (sumLen (c :: suf) - (lo + len)) := by
        rw [← length_flatten hdlWin, hdl]
        simp [List.length_take, List.length_drop]
        omega
      omega
  · -- pos = total (only possible with len = 0): both passes fall through
    have hfind : findSegmentAt s.head pos = none := findSegmentAt_none hidx (by omega)
    have hred : deleteRange s pos len = (true, updateState s.head) := by
      rw [deleteRange, if_neg hnlt, hfind]
    rw [hred]
    have hwf' : wf (updateState s.head) = true := wf_updateState hwinall hap
    refine ⟨rfl, ?_, ?_, hwf'⟩
    · rw [getAllSamples_wf hwf', updateState_flatten, hga]
      rw [show pos = (flatten s.head).length from by omega,
        show (flatten s.head).length + len = (flatten s.head).length from by omega,
        List.take_length, List.drop_length, List.append_nil]
    · rw [updateState_total]
      omega

end AudioEditor

namespace AudioEditor

/-- Both failure paths of `deleteRange` return the state untouched. -/
theorem deleteRange_false {s : SoundSegment} {pos len : Nat} :
    (s.total_length < pos + len → deleteRange s pos len = (false, s))
    ∧ ((deleteRange s pos len).1 = false → (deleteRange s pos len).2 = s) := by
  constructor
  · intro h
    rw [deleteRange, if_pos h]
  · intro h
    by_cases h1 : s.total_length < pos + len
    · rw [deleteRange, if_pos h1]
    · rw [deleteRange, if_neg h1] at h ⊢
      cases hf : findSegmentAt s.head pos with
      | none => rw [hf] at h; simp at h
      | some p =>
        obtain ⟨i, lo⟩ := p
        rw [hf] at h
        dsimp only at h ⊢
        by_cases hcp : checkPass (s.head.drop i) len lo = true
        · rw [if_pos hcp]
        · rw [if_neg hcp] at h
          simp at h

/-- `deleteRange` preserves well-formedness and childlessness for every
argument pair. -/
theorem deleteRange_preserves {s : SoundSegment} (pos len : Nat) (hwf : wf s = true) :
    wf (deleteRange s pos len).2 = true
    ∧ (chainNoChild s.head = true → chainNoChild (deleteRange s pos len).2.head = true) := by
  rcases wf_iff.mp hwf with ⟨hidx, hap, htot⟩
  have hwinall : winOK s.head = true := winOK_of_chainIdx hidx
  by_cases h1 : s.total_length < pos + len
  · rw [deleteRange, if_pos h1]
    exact ⟨hwf, fun h => h⟩
  · by_cases hpos : pos < sumLen s.head
    · obtain ⟨pre, c, suf, hsplit, hfind, hgs, hcle, hclt⟩ :=
        findSegmentAt_spec hidx (Nat.zero_le pos) (by simpa using hpos)
      set lo := pos - c.global_start with hlo_def
      have hdropEq : s.head.drop pre.length = c :: suf := by
        rw [hsplit]; exact List.drop_left pre (c :: suf)
      have htakeEq : s.head.take pre.length = pre := by
        rw [hsplit]; exact List.take_left pre (c :: suf)
      by_cases hcp : checkPass (c :: suf) len lo = true
      · have hred : deleteRange s pos len = (false, s) := by
          rw [deleteRange, if_neg h1, hfind]
          simp only [hdropEq, hcp, if_true]
        rw [hred]
        exact ⟨hwf, fun h => h⟩
      · have hred : deleteRange s pos len
            = (true, updateState (pre ++ deleteLoop (c :: suf) len lo)) := by
          rw [deleteRange, if_neg h1, hfind]
          simp only [hdropEq, htakeEq]
          rw [if_neg hcp]
        rw [hred]
        rw [hsplit] at hap hwinall
        have hapSplit := @allPos_append pre (c :: suf)
        rw [hap] at hapSplit
        obtain ⟨hapPre, hapSuf⟩ := (Bool.and_eq_true _ _).mp hapSplit.symm
        have hwinSplit := @winOK_append pre (c :: suf)
        rw [hwinall] at hwinSplit
        obtain ⟨hwinPre, hwinSuf⟩ := (Bool.and_eq_true _ _).mp hwinSplit.symm
        have hloc : ∀ c', (c :: suf).head? = some c' → lo ≤ c'.length := by
          intro c' hc'; simp at hc'; subst hc'; omega
        obtain ⟨hdlWin, hdlPos, hdlChild⟩ := deleteLoop_struct (c :: suf) len lo hwinSuf hapSuf hloc
        constructor
        · apply wf_updateState
          · rw [winOK_append, hwinPre, hdlWin]; rfl
          · rw [allPos_append, hapPre, hdlPos]; rfl
        · intro h
          rw [hsplit] at h
          have hncSplit := @chainNoChild_append pre (c :: suf)
          rw [h] at hncSplit
          obtain ⟨hncPre, hncSuf⟩ := (Bool.and_eq_true _ _).mp hncSplit.symm
          show chainNoChild (updateGI (pre ++ deleteLoop (c :: suf) len lo) 0) = true
          rw [chainNoChild_updateGI, chainNoChild_append, hncPre, hdlChild hncSuf]
          rfl
    · have hfind : findSegmentAt s.head pos = none := findSegmentAt_none hidx (by omega)
      have hred : deleteRange s pos len = (true, updateState s.head) := by
        rw [deleteRange, if_neg h1, hfind]
      rw [hred]
      refine ⟨wf_updateState hwinall hap, ?_⟩
      intro h
      show chainNoChild (updateGI s.head 0) = true
      rw [chainNoChild_updateGI]
      exact h

theorem buildChain_struct (src : SoundSegment) :
    ∀ (fuel cg remaining : Nat),
    winOK (buildChain src fuel cg remaining) = true
    ∧ allPos (buildChain src fuel cg remaining) = true
    ∧ chainNoChild (buildChain src fuel cg remaining) = true := by
  intro fuel
  induction fuel with
  | zero => intro cg remaining; simp [buildChain, winOK, allPos, chainNoChild]
  | succ fuel ih =>
    intro cg remaining
    by_cases hz : remaining = 0
    · rw [buildChain, if_pos hz]
      simp [winOK, allPos, chainNoChild]
    · rw [buildChain, if_neg hz]
      cases hf : findSegmentAt src.head cg with
      | none => simp [winOK, allPos, chainNoChild]
      | some p =>
        obtain ⟨i, lo⟩ := p
        obtain ⟨c, hdrop, hc1, hc2, hc3⟩ := findSegmentAt_shape hf
        dsimp only
        rw [hdrop]
        dsimp only
        have hlolt : lo < c.length := by omega
        have htpos : 0 < min (c.length - lo) remaining := by omega
        refine ⟨?_, ?_, ?_⟩
        · apply winOK_cons.mpr
          refine ⟨?_, (ih _ _).1⟩
          dsimp only
          rw [padded_length]
          omega
        · apply allPos_cons.mpr
          exact ⟨by dsimp only; omega, (ih _ _).2.1⟩
        · apply chainNoChild_cons.mpr
          exact ⟨rfl, (ih _ _).2.2⟩

theorem buildChain_flatten {src : SoundSegment} (hwf : wf src = true) :
    ∀ (fuel cg remaining : Nat), remaining ≤ fuel →
    cg + remaining ≤ sumLen src.head →
    flatten (buildChain src fuel cg remaining)
        = ((flatten src.head).drop cg).take remaining
    ∧ sumLen (buildChain src fuel cg remaining) = remaining := by
  rcases wf_iff.mp hwf with ⟨hidx, hap, _⟩
  have hwinall : winOK src.head = true := winOK_of_chainIdx hidx
  intro fuel
  induction fuel with
  | zero =>
    intro cg remaining hf _
    have : remaining = 0 := by omega
    subst this
    simp [buildChain, flatten, sumLen]
  | succ fuel ih =>
    intro cg remaining hfuel hbound
    by_cases hz : remaining = 0
    · subst hz
      rw [buildChain, if_pos rfl]
      simp [flatten, sumLen]
    · rw [buildChain, if_neg hz]
      obtain ⟨pre, c, suf, hsplit, hfind, hgs, hcle, hclt⟩ :=
        findSegmentAt_spec hidx (Nat.zero_le cg) (by omega)
      have hdropEq : src.head.drop pre.length = c :: suf := by
        rw [hsplit]; exact List.drop_left pre (c :: suf)
      simp only [hfind, hdropEq]
      set lo := cg - c.global_start with hlo_def
      set take := min (c.length - lo) remaining with htake_def
      have hgs0 : c.global_start = sumLen pre := by simpa using hgs
      have hlolt : lo < c.length := by omega
      have htpos : 0 < take := by omega
      have htle : lo + take ≤ c.length := by
        have := min_le_left (c.length - lo) remaining
        omega
      -- the defensive copy has exactly `take` samples
      rw [hsplit] at hwinall hap
      have hwinSplit := @winOK_append pre (c :: suf)
      rw [hwinall] at hwinSplit
      obtain ⟨hwinPre, hwinSuf⟩ := (Bool.and_eq_true _ _).mp hwinSplit.symm
      have hcwin : c.offset + c.length ≤ c.data.length := (winOK_cons.mp hwinSuf).1
      have hchunklen : ((c.data.drop (c.offset + lo)).take take).length = take :=
        chunk_length c htle hcwin
      rw [hchunklen, Nat.sub_self, List.replicate_zero, List.append_nil]
      set chunk := (c.data.drop (c.offset + lo)).take take with hchunk_def
      have hwnode : window ⟨chunk, 0, take, 0, 0⟩ = chunk := by
        rw [window]
        simp only [List.drop_zero]
        exact List.take_of_length_le (le_of_eq hchunklen)
      obtain ⟨ihf, ihs⟩ := ih (cg + take) (remaining - take) (by omega) (by omega)
      refine ⟨?_, ?_⟩
      · rw [flatten, hwnode, ihf]
        have hfl : flatten src.head = flatten pre ++ (window c ++ flatten suf) := by
          rw [hsplit, flatten_append]; rfl
        have hfprelen : (flatten pre).length = sumLen pre := length_flatten hwinPre
        have hwlen : (window c).length = c.length := length_window c hcwin
        have hcg : cg = sumLen pre + lo := by omega
        have hdropcg : (flatten src.head).drop cg = (window c).drop lo ++ flatten suf := by
          rw [hfl, drop_append_ge (by omega : (flatten pre).length ≤ cg), hfprelen,
            drop_append_le (by omega : cg - sumLen pre ≤ (window c).length)]
          rw [show cg - sumLen pre = lo from by omega]
        have hchunk_fl : ((flatten src.head).drop cg).take take = chunk := by
          rw [hdropcg,
            take_append_le (by rw [List.length_drop, hwlen]; omega
              : take ≤ ((window c).drop lo).length),
            hchunk_def, chunk_eq_window c htle]
        have hdd : (flatten src.head).drop (cg + take)
            = ((flatten src.head).drop cg).drop take := by
          rw [List.drop_drop, Nat.add_comm]
        rw [← hchunk_fl, hdd, ← List.take_add]
        congr 1
        omega
      · rw [sumLen, ihs]
        dsimp only
        omega

end AudioEditor

/-! ## Insertion -/

namespace AudioEditor

theorem all_take {p : SegmentNode → Bool} {ns : List SegmentNode}
    (h : ns.all p = true) (i : Nat) : (ns.take i).all p = true := by
  rw [List.all_eq_true] at h ⊢
  exact fun x hx => h x (List.take_subset i ns hx)

theorem all_drop {p : SegmentNode → Bool} {ns : List SegmentNode}
    (h : ns.all p = true) (i : Nat) : (ns.drop i).all p = true := by
  rw [List.all_eq_true] at h ⊢
  exact fun x hx => h x (List.drop_subset i ns hx)

/-- Master specification of `insert` with both ranges in bounds: the call
returns a state (no null dereference), whose contents are the destination
with the source slice spliced in at `dest_pos`, whose length grew by `len`,
and which is well-formed. -/
theorem insert_spec {d : SoundSegment} (src : SoundSegment) (dest_pos src_pos len : Nat)
    (hwfd : wf d = true) (hwfs : wf src = true)
    (hsp : src_pos + len ≤ src.total_length) (hdp : dest_pos ≤ d.total_length) :
    ∃ d', insert d src dest_pos src_pos len = some d'
      ∧ getAllSamples d' = (getAllSamples d).take dest_pos
          ++ (((getAllSamples src).drop src_pos).take len ++ (getAllSamples d).drop dest_pos)
      ∧ d'.total_length = d.total_length + len
      ∧ wf d' = true := by
  rcases wf_iff.mp hwfd with ⟨hidxd, hapd, htotd⟩
  rcases wf_iff.mp hwfs with ⟨hidxs, _, htots⟩
  have hwind : winOK d.head = true := winOK_of_chainIdx hidxd
  have hgad : getAllSamples d = flatten d.head := getAllSamples_wf hwfd
  have hgas : getAllSamples src = flatten src.head := getAllSamples_wf hwfs
  have hfdlen : (flatten d.head).length = sumLen d.head := length_flatten hwind
  by_cases hz : len = 0
  · subst hz
    refine ⟨d, by rw [insert, if_pos rfl], ?_, by omega, hwfd⟩
    rw [List.take_zero, List.nil_append, List.take_append_drop]
  · obtain ⟨hchainF, hchainS⟩ :=
      buildChain_flatten hwfs len src_pos len (le_refl len) (by omega)
    obtain ⟨hchW, hchP, _⟩ := buildChain_struct src len src_pos len
    set chain := buildChain src len src_pos len with hchain_def
    have hchne : ¬(chain = []) := by
      intro h
      rw [h] at hchainS
      simp [sumLen] at hchainS
      omega
    have hslice : ((getAllSamples src).drop src_pos).take len = flatten chain := by
      rw [hgas, hchainF]
    by_cases hdlt : dest_pos < sumLen d.head
    · obtain ⟨pre, c, suf, hsplit, hfind, hgs, hcle, hclt⟩ :=
        findSegmentAt_spec hidxd (Nat.zero_le dest_pos) (by simpa using hdlt)
      have hgs0 : c.global_start = sumLen pre := by simpa using hgs
      set dlo := dest_pos - c.global_start with hdlo_def
      have hdropEq : d.head.drop pre.length = c :: suf := by
        rw [hsplit]; exact List.drop_left pre (c :: suf)
      have htakeEq : d.head.take pre.length = pre := by
        rw [hsplit]; exact List.take_left pre (c :: suf)
      -- facts about the parts
      rw [hsplit] at hapd hwind
      have hapSplit := @allPos_append pre (c :: suf)
      rw [hapd] at hapSplit
      obtain ⟨hapPre, hapSuf⟩ := (Bool.and_eq_true _ _).mp hapSplit.symm
      have hwinSplit := @winOK_append pre (c :: suf)
      rw [hwind] at hwinSplit
      obtain ⟨hwinPre, hwinSuf⟩ := (Bool.and_eq_true _ _).mp hwinSplit.symm
      obtain ⟨hcwin, hsufWin⟩ := winOK_cons.mp hwinSuf
      obtain ⟨hcpos, hsufPos⟩ := allPos_cons.mp hapSuf
      have hfprelen : (flatten pre).length = sumLen pre := length_flatten hwinPre
      have hwlen : (window c).length = c.length := length_window c hcwin
      have hfld : flatten d.head = flatten pre ++ (window c ++ flatten suf) := by
        rw [hsplit, flatten_append]; rfl
      have hsumd : sumLen d.head = sumLen pre + (c.length + sumLen suf) := by
        rw [hsplit, sumLen_append]; rfl
      by_cases hdlo0 : 0 < dlo
      · -- split the segment at dest_pos, then splice between the halves
        set left := { c with length := dlo } with hleft_def
        set right := { c with offset := c.offset + dlo, length := c.length - dlo, global_start := c.global_start + dlo } with hright_def
        have hred : insert d src dest_pos src_pos len
            = some (updateState (pre ++ (left :: (chain ++ right :: suf)))) := by
          rw [insert, if_neg hz]
          simp only [hfind, hdropEq, htakeEq, ← hchain_def]
          rw [if_pos hdlo0, if_neg hchne]
        refine ⟨_, hred, ?_, ?_, ?_⟩
        · have hwfres : wf (updateState (pre ++ (left :: (chain ++ right :: suf)))) = true := by
            apply wf_updateState
            · rw [winOK_append, hwinPre]
              apply (Bool.and_eq_true _ _).mpr
              refine ⟨rfl, winOK_cons.mpr ⟨by dsimp only; omega, ?_⟩⟩
              rw [winOK_append, hchW]
              exact (Bool.and_eq_true _ _).mpr ⟨rfl,
                winOK_cons.mpr ⟨by dsimp only; omega, hsufWin⟩⟩
            · rw [allPos_append, hapPre]
              apply (Bool.and_eq_true _ _).mpr
              refine ⟨rfl, allPos_cons.mpr ⟨by dsimp only; omega, ?_⟩⟩
              rw [allPos_append, hchP]
              exact (Bool.and_eq_true _ _).mpr ⟨rfl,
                allPos_cons.mpr ⟨by dsimp only; omega, hsufPos⟩⟩
          rw [getAllSamples_wf hwfres, updateState_flatten, flatten_append, flatten, flatten_append,
            flatten, hgad, hfld]
          have hwl : window left = (window c).take dlo := window_take c (by omega)
          have hwr : window right = (window c).drop dlo := by
            rw [show window right = window { c with offset := c.offset + dlo, length := c.length - dlo } from rfl]
            exact window_drop c dlo
          rw [hwl, hwr, ← hslice,
            take_append_ge (by omega : (flatten pre).length ≤ dest_pos), hfprelen,
            take_append_le (by omega : dest_pos - sumLen pre ≤ (window c).length),
            drop_append_ge (by omega : (flatten pre).length ≤ dest_pos), hfprelen,
            drop_append_le (by omega : dest_pos - sumLen pre ≤ (window c).length)]
          rw [show dest_pos - sumLen pre = dlo from by omega]
          simp [List.append_assoc]
        · rw [updateState_total, sumLen_append, sumLen, sumLen_append, sumLen]
          dsimp only
          omega
        · apply wf_updateState
          · rw [winOK_append, hwinPre]
            apply (Bool.and_eq_true _ _).mpr
            refine ⟨rfl, winOK_cons.mpr ⟨by dsimp only; omega, ?_⟩⟩
            rw [winOK_append, hchW]
            exact (Bool.and_eq_true _ _).mpr ⟨rfl,
              winOK_cons.mpr ⟨by dsimp only; omega, hsufWin⟩⟩
          · rw [allPos_append, hapPre]
            apply (Bool.and_eq_true _ _).mpr
            refine ⟨rfl, allPos_cons.mpr ⟨by dsimp only; omega, ?_⟩⟩
            rw [allPos_append, hchP]
            exact (Bool.and_eq_true _ _).mpr ⟨rfl,
              allPos_cons.mpr ⟨by dsimp only; omega, hsufPos⟩⟩
      · -- dest_pos falls exactly on a segment start
        have hdlo_eq : dlo = 0 := by omega
        have hdp_eq : dest_pos = sumLen pre := by omega
        have hred : insert d src dest_pos src_pos len
            = some (updateState (pre ++ (chain ++ c :: suf))) := by
          rw [insert, if_neg hz]
          simp only [hfind, hdropEq, htakeEq, ← hchain_def]
          rw [if_neg hdlo0, if_neg hchne]
        have hwfres : wf (updateState (pre ++ (chain ++ c :: suf))) = true := by
          apply wf_updateState
          · rw [winOK_append, hwinPre, winOK_append, hchW, hwinSuf]
            rfl
          · rw [allPos_append, hapPre, allPos_append, hchP, hapSuf]
            rfl
        refine ⟨_, hred, ?_, ?_, hwfres⟩
        · rw [getAllSamples_wf hwfres, updateState_flatten, flatten_append, flatten_append,
            hgad, hfld, ← hslice,
            take_append_ge (by omega : (flatten pre).length ≤ dest_pos), hfprelen,
            drop_append_ge (by omega : (flatten pre).length ≤ dest_pos), hfprelen]
          rw [show dest_pos - sumLen pre = 0 from by omega]
          simp
          rfl
        · rw [updateState_total, sumLen_append, sumLen_append,
            show sumLen (c :: suf) = c.length + sumLen suf from rfl]
          omega
    · -- dest_pos = total length: append at the end of the chain
      have hfind : findSegmentAt d.head dest_pos = none :=
        findSegmentAt_none hidxd (by omega)
      have hred : insert d src dest_pos src_pos len
          = some (updateState (d.head ++ chain)) := by
        rw [insert, if_neg hz]
        simp only [hfind, ← hchain_def]
      have hwfres : wf (updateState (d.head ++ chain)) = true := by
        apply wf_updateState
        · rw [winOK_append, hwind, hchW]; rfl
        · rw [allPos_append, hapd, hchP]; rfl
      refine ⟨_, hred, ?_, ?_, hwfres⟩
      · rw [getAllSamples_wf hwfres, updateState_flatten, flatten_append, hgad, ← hslice]
        have hdpe : dest_pos = (flatten d.head).length := by omega
        rw [hdpe, List.take_length, List.drop_length, List.append_nil]
      · rw [updateState_total, sumLen_append]
        omega

end AudioEditor

namespace AudioEditor

/-- Whenever `insert` returns (it does not crash), well-formedness of the
destination is preserved, and no child references appear (for any source
track whatsoever). -/
theorem insert_preserves {d src : SoundSegment} {dest_pos src_pos len : Nat}
    {s' : SoundSegment} (hwfd : wf d = true)
    (h : insert d src dest_pos src_pos len = some s') :
    wf s' = true ∧ (chainNoChild d.head = true → chainNoChild s'.head = true) := by
  rcases wf_iff.mp hwfd with ⟨hidxd, hapd, htotd⟩
  have hwind : winOK d.head = true := winOK_of_chainIdx hidxd
  obtain ⟨hchW, hchP, hchN⟩ := buildChain_struct src len src_pos len
  by_cases hz : len = 0
  · rw [insert, if_pos hz] at h
    obtain rfl := Option.some.inj h
    exact ⟨hwfd, fun x => x⟩
  · rw [insert, if_neg hz] at h
    have hAppend : wf (updateState (d.head ++ buildChain src len src_pos len)) = true
        ∧ (chainNoChild d.head = true →
            chainNoChild (updateState (d.head ++ buildChain src len src_pos len)).head = true) := by
      constructor
      · apply wf_updateState
        · rw [winOK_append, hwind, hchW]; rfl
        · rw [allPos_append, hapd, hchP]; rfl
      · intro hnc
        show chainNoChild (updateGI (d.head ++ buildChain src len src_pos len) 0) = true
        rw [chainNoChild_updateGI, chainNoChild_append, hnc, hchN]
        rfl
    cases hf : findSegmentAt d.head dest_pos with
    | none =>
      rw [hf] at h
      dsimp only at h
      obtain rfl := Option.some.inj h
      exact hAppend
    | some p =>
      obtain ⟨i, lo⟩ := p
      rw [hf] at h
      dsimp only at h
      cases hd : d.head.drop i with
      | nil =>
        rw [hd] at h
        dsimp only at h
        obtain rfl := Option.some.inj h
        exact hAppend
      | cons c suf =>
        rw [hd] at h
        dsimp only at h
        obtain ⟨c', hdrop', hle', hlt', hlo'⟩ := findSegmentAt_shape hf
        rw [hd] at hdrop'
        injection hdrop' with hc hsuf
        subst hc
        have hlolt : lo < c.length := by omega
        have htd : d.head = d.head.take i ++ c :: suf := by
          rw [← hd, List.take_append_drop]
        have hw2 : winOK (d.head.take i ++ c :: suf) = true := by rw [← htd]; exact hwind
        have hp2 : allPos (d.head.take i ++ c :: suf) = true := by rw [← htd]; exact hapd
        rw [winOK_append] at hw2
        obtain ⟨hwPre, hwSuf⟩ := (Bool.and_eq_true _ _).mp hw2
        rw [allPos_append] at hp2
        obtain ⟨hpPre, hpSuf⟩ := (Bool.and_eq_true _ _).mp hp2
        obtain ⟨hcwin, hsufWin⟩ := winOK_cons.mp hwSuf
        obtain ⟨hcpos, hsufPos⟩ := allPos_cons.mp hpSuf
        have hnoc : chainNoChild d.head = true →
            chainNoChild (d.head.take i) = true ∧ c.children = 0 ∧ chainNoChild suf = true := by
          intro hnc
          have hn2 : chainNoChild (d.head.take i ++ c :: suf) = true := by
            rw [← htd]; exact hnc
          rw [chainNoChild_append] at hn2
          obtain ⟨ha, hb⟩ := (Bool.and_eq_true _ _).mp hn2
          exact ⟨ha, (chainNoChild_cons.mp hb).1, (chainNoChild_cons.mp hb).2⟩
        by_cases hdlo : 0 < lo
        · rw [if_pos hdlo] at h
          by_cases hce : buildChain src len src_pos len = []
          · rw [if_pos hce] at h
            exact absurd h (by simp)
          · rw [if_neg hce] at h
            obtain rfl := Option.some.inj h
            refine ⟨?_, ?_⟩
            · apply wf_updateState
              · rw [winOK_append, hwPre]
                apply (Bool.and_eq_true _ _).mpr
                refine ⟨rfl, winOK_cons.mpr ⟨by dsimp only; omega, ?_⟩⟩
                rw [winOK_append, hchW]
                exact (Bool.and_eq_true _ _).mpr ⟨rfl,
                  winOK_cons.mpr ⟨by dsimp only; omega, hsufWin⟩⟩
              · rw [allPos_append, hpPre]
                apply (Bool.and_eq_true _ _).mpr
                refine ⟨rfl, allPos_cons.mpr ⟨by dsimp only; omega, ?_⟩⟩
                rw [allPos_append, hchP]
                exact (Bool.and_eq_true _ _).mpr ⟨rfl,
                  allPos_cons.mpr ⟨by dsimp only; omega, hsufPos⟩⟩
            · intro hnc
              obtain ⟨hnPre, hnC, hnSuf⟩ := hnoc hnc
              show chainNoChild (updateGI _ 0) = true
              rw [chainNoChild_updateGI, chainNoChild_append, hnPre]
              apply (Bool.and_eq_true _ _).mpr
              refine ⟨rfl, chainNoChild_cons.mpr ⟨hnC, ?_⟩⟩
              rw [chainNoChild_append, hchN]
              exact (Bool.and_eq_true _ _).mpr ⟨rfl, chainNoChild_cons.mpr ⟨hnC, hnSuf⟩⟩
        · rw [if_neg hdlo] at h
          by_cases hce : buildChain src len src_pos len = []
          · rw [if_pos hce] at h
            exact absurd h (by simp)
          · rw [if_neg hce] at h
            obtain rfl := Option.some.inj h
            refine ⟨?_, ?_⟩
            · apply wf_updateState
              · rw [winOK_append, hwPre]
                apply (Bool.and_eq_true _ _).mpr
                refine ⟨rfl, ?_⟩
                rw [winOK_append, hchW]
                exact (Bool.and_eq_true _ _).mpr ⟨rfl, hwSuf⟩
              · rw [allPos_append, hpPre]
                apply (Bool.and_eq_true _ _).mpr
                refine ⟨rfl, ?_⟩
                rw [allPos_append, hchP]
                exact (Bool.and_eq_true _ _).mpr ⟨rfl, hpSuf⟩
            · intro hnc
              obtain ⟨hnPre, hnC, hnSuf⟩ := hnoc hnc
              show chainNoChild (updateGI _ 0) = true
              rw [chainNoChild_updateGI, chainNoChild_append, hnPre]
              apply (Bool.and_eq_true _ _).mpr
              refine ⟨rfl, ?_⟩
              rw [chainNoChild_append, hchN]
              exact (Bool.and_eq_true _ _).mpr ⟨rfl, chainNoChild_cons.mpr ⟨hnC, hnSuf⟩⟩

end AudioEditor

/-! ## Preservation along API calls, refusal lemma, identify -/

namespace AudioEditor

theorem write_preserves {s : SoundSegment} (src : List Int) (pos : Nat) (hwf : wf s = true) :
    wf (write s src pos) = true
    ∧ (chainNoChild s.head = true → chainNoChild (write s src pos).head = true) := by
  by_cases hz : src.length = 0
  · rw [write, if_pos hz]
    exact ⟨hwf, fun h => h⟩
  · refine ⟨(write_spec src pos hwf (by intro h; rw [h] at hz; exact hz rfl)).1, ?_⟩
    intro hnc
    rw [write, if_neg hz]
    show chainNoChild (writeLoop _ src pos 0 src.length) = true
    rw [writeLoop_noChild]
    by_cases hc : s.total_length < pos + src.length
    · rw [if_pos hc]
      show chainNoChild (updateGI (extendChain s.head (pos + src.length)) 0) = true
      rw [chainNoChild_updateGI]
      exact chainNoChild_extendChain _ hnc
    · rw [if_neg hc]
      exact hnc

/-- Every state reachable by public API calls from a fresh track is
well-formed and has no child references anywhere in the chain. -/
theorem reachable_wf {s : SoundSegment} (h : Reachable s) :
    wf s = true ∧ chainNoChild s.head = true := by
  induction h with
  | refl => exact ⟨rfl, rfl⟩
  | tail _ hstep ih =>
    obtain ⟨hwf, hnc⟩ := ih
    cases hstep with
    | write src pos => exact ⟨(write_preserves src pos hwf).1, (write_preserves src pos hwf).2 hnc⟩
    | del pos len =>
      exact ⟨(deleteRange_preserves pos len hwf).1, (deleteRange_preserves pos len hwf).2 hnc⟩
    | ins src dp sp len s' hins =>
      exact ⟨(insert_preserves hwf hins).1, (insert_preserves hwf hins).2 hnc⟩
    | load samples => exact ⟨(write_preserves samples 0 hwf).1, (write_preserves samples 0 hwf).2 hnc⟩

/-- If some segment touched by an in-bounds range has a live child,
`deleteRange` fails without mutating. -/
theorem deleteRange_refuses {s : SoundSegment} {pos len : Nat} (hwf : wf s = true)
    (hle : pos + len ≤ s.total_length) (ht : touchedHasChild s.head pos len = true) :
    deleteRange s pos len = (false, s) := by
  rcases wf_iff.mp hwf with ⟨hidx, hap, htot⟩
  have hlen0 : 0 < len := (touched_iff.mp ht).1
  have hnlt : ¬ (s.total_length < pos + len) := by omega
  obtain ⟨pre, c, suf, hsplit, hfind, hgs, hcle, hclt⟩ :=
    findSegmentAt_spec hidx (Nat.zero_le pos) (by omega)
  have hgs0 : c.global_start = sumLen pre := by simpa using hgs
  have hdropEq : s.head.drop pre.length = c :: suf := by
    rw [hsplit]; exact List.drop_left pre (c :: suf)
  have hcp : checkPass (c :: suf) len (pos - c.global_start) = true :=
    (checkPass_eq_touched hwf hsplit hgs0 hcle hclt).mpr ht
  rw [deleteRange, if_neg hnlt, hfind]
  simp only [hdropEq, hcp, if_true]

theorem thresholdTest_iff (ts ps : List Int) (i : Nat) :
    thresholdTest ts ps i = true ↔ threshold ps ≤ corrAt ts ps i := by
  rw [thresholdTest, decide_eq_true_iff, threshold, corrAt, corrInt,
    div_mul_eq_mul_div, div_le_iff₀ (by norm_num : (0 : ℚ) < 100)]
  constructor
  · intro h
    calc (95 : ℚ) * ((dotInt ps ps : Int) : ℚ)
        = ((95 * dotInt ps ps : Int) : ℚ) := by push_cast; ring
      _ ≤ ((100 * dotInt ((ts.drop i).take ps.length) ps : Int) : ℚ) := by
          exact_mod_cast h
      _ = ((dotInt ((ts.drop i).take ps.length) ps : Int) : ℚ) * 100 := by push_cast; ring
  · intro h
    have h' : ((95 * dotInt ps ps : Int) : ℚ)
        ≤ ((100 * dotInt ((ts.drop i).take ps.length) ps : Int) : ℚ) := by
      push_cast
      calc (95 : ℚ) * ((dotInt ps ps : Int) : ℚ)
          ≤ ((dotInt ((ts.drop i).take ps.length) ps : Int) : ℚ) * 100 := h
        _ = 100 * ((dotInt ((ts.drop i).take ps.length) ps : Int) : ℚ) := by ring
    exact_mod_cast h'

theorem identifyLoop_mem (ts ps : List Int) :
    ∀ (fuel i : Nat), ∀ m ∈ identifyLoop ts ps fuel i,
    i ≤ m.1 ∧ m.2 = m.1 + ps.length - 1 ∧ m.1 + ps.length ≤ ts.length
      ∧ threshold ps ≤ corrAt ts ps m.1 := by
  intro fuel
  induction fuel with
  | zero => intro i m hm; simp [identifyLoop] at hm
  | succ fuel ih =>
    intro i m hm
    rw [identifyLoop] at hm
    by_cases h1 : i + ps.length ≤ ts.length
    · rw [if_pos h1] at hm
      by_cases h2 : thresholdTest ts ps i = true
      · rw [if_pos h2] at hm
        rcases List.mem_cons.mp hm with rfl | hmem
        · exact ⟨le_refl _, rfl, h1, (thresholdTest_iff ts ps i).mp h2⟩
        · obtain ⟨ha, hb, hc, hd⟩ := ih (i + ps.length) m hmem
          exact ⟨by omega, hb, hc, hd⟩
      · rw [if_neg h2] at hm
        obtain ⟨ha, hb, hc, hd⟩ := ih (i + 1) m hm
        exact ⟨by omega, hb, hc, hd⟩
    · rw [if_neg h1] at hm
      simp at hm

theorem identifyLoop_pairwise (ts ps : List Int) :
    ∀ (fuel i : Nat),
    List.Pairwise (fun a b => a.1 + ps.length ≤ b.1) (identifyLoop ts ps fuel i) := by
  intro fuel
  induction fuel with
  | zero => intro i; simp [identifyLoop]
  | succ fuel ih =>
    intro i
    rw [identifyLoop]
    by_cases h1 : i + ps.length ≤ ts.length
    · rw [if_pos h1]
      by_cases h2 : thresholdTest ts ps i = true
      · rw [if_pos h2]
        refine List.Pairwise.cons ?_ (ih (i + ps.length))
        intro m hm
        have := (identifyLoop_mem ts ps fuel (i + ps.length) m hm).1
        omega
      · rw [if_neg h2]
        exact ih (i + 1)
    · rw [if_neg h1]
      exact List.Pairwise.nil

theorem identify_guard {s ad : SoundSegment}
    (h : s.total_length = 0 ∨ ad.total_length = 0 ∨ s.total_length < ad.total_length) :
    identify s ad = [] := by
  rw [identify, if_pos h]

theorem identify_matches (s ad : SoundSegment) :
    ∀ m ∈ identify s ad,
    m.2 = m.1 + ad.total_length - 1 ∧ m.1 + ad.total_length ≤ s.total_length
      ∧ threshold (getAllSamples ad) ≤ corrAt (getAllSamples s) (getAllSamples ad) m.1 := by
  intro m hm
  rw [identify] at hm
  by_cases h : s.total_length = 0 ∨ ad.total_length = 0 ∨ s.total_length < ad.total_length
  · rw [if_pos h] at hm
    simp at hm
  · rw [if_neg h] at hm
    have hlt : (getAllSamples s).length = s.total_length := read_length s 0 _
    have hlp : (getAllSamples ad).length = ad.total_length := read_length ad 0 _
    obtain ⟨_, hb, hc, hd⟩ := identifyLoop_mem _ _ _ _ m hm
    rw [hlp] at hb
    rw [hlp, hlt] at hc
    exact ⟨hb, hc, hd⟩

theorem identify_pairwise (s ad : SoundSegment) :
    List.Pairwise (fun a b => a.1 + ad.total_length ≤ b.1) (identify s ad) := by
  rw [identify]
  by_cases h : s.total_length = 0 ∨ ad.total_length = 0 ∨ s.total_length < ad.total_length
  · rw [if_pos h]
    exact List.Pairwise.nil
  · rw [if_neg h]
    have hlp : (getAllSamples ad).length = ad.total_length := read_length ad 0 _
    have := identifyLoop_pairwise (getAllSamples s) (getAllSamples ad)
      ((getAllSamples s).length + 1) 0
    rw [hlp] at this
    exact this

end AudioEditor

/-! ## Comparing the two implementations -/

namespace AudioEditor

theorem shiftLeft_cnt_zero (d : List Int) (a k : Nat) : shiftLeft d a k 0 = d := by
  simp [shiftLeft]

theorem simpleDelLoop_zero : ∀ (fuel : Nat) (ns : List SegmentNode) (pos : Nat),
    Simple.simpleDelLoop fuel ns pos 0 = ns := by
  intro fuel ns pos
  cases fuel with
  | zero => rfl
  | succ f => rw [Simple.simpleDelLoop, if_pos rfl]

/-- Out-of-range deletions agree between the two implementations. -/
theorem simple_deleteRange_oor {s : SoundSegment} {pos len : Nat}
    (h : s.total_length < pos + len) :
    Simple.deleteRange s pos len = deleteRange s pos len := by
  rw [Simple.deleteRange, if_pos h, deleteRange, if_pos h]

theorem deleteLoop_zero : ∀ (ns : List SegmentNode) (lo : Nat), deleteLoop ns 0 lo = ns := by
  intro ns lo
  cases ns with
  | nil => rfl
  | cons c rest => rw [deleteLoop, if_pos rfl]

theorem getAll_updateState {ns : List SegmentNode} (hwin : winOK ns = true) :
    getAllSamples (updateState ns) = flatten ns := by
  rw [getAllSamples_flatten (chainIdx_updateGI 0 hwin)
    (by simp [updateState, sumLen_updateGI]), updateState_flatten]

/-- When the requested range lies inside a single segment (and the track is
well formed with no child references), the two `deleteRange` implementations
return the same flag, the same samples and the same length. -/
theorem simple_deleteRange_single {s : SoundSegment} {pos len i lo : Nat}
    {c : SegmentNode} {suf : List SegmentNode}
    (hwf : wf s = true) (hnc : chainNoChild s.head = true)
    (hle : pos + len ≤ s.total_length)
    (hfind : findSegmentAt s.head pos = some (i, lo))
    (hdrop : s.head.drop i = c :: suf)
    (hseg : len ≤ c.length - lo) :
    (Simple.deleteRange s pos len).1 = (deleteRange s pos len).1
    ∧ getAllSamples (Simple.deleteRange s pos len).2
        = getAllSamples (deleteRange s pos len).2
    ∧ (Simple.deleteRange s pos len).2.total_length
        = (deleteRange s pos len).2.total_length := by
  rcases wf_iff.mp hwf with ⟨hidx, hap, htot⟩
  have hwind : winOK s.head = true := winOK_of_chainIdx hidx
  have hnlt : ¬ (s.total_length < pos + len) := by omega
  have htd : s.head = s.head.take i ++ c :: suf := by
    rw [← hdrop, List.take_append_drop]
  have hw2 : winOK (s.head.take i ++ c :: suf) = true := by rw [← htd]; exact hwind
  rw [winOK_append] at hw2
  obtain ⟨hwPre, hwSuf⟩ := (Bool.and_eq_true _ _).mp hw2
  obtain ⟨hcwin, hsufWin⟩ := winOK_cons.mp hwSuf
  have hncSuf : chainNoChild (c :: suf) = true := by
    rw [← hdrop]
    exact all_drop hnc i
  have hcp : checkPass (c :: suf) len lo = false := checkPass_noChild _ len lo hncSuf
  have hmain : deleteRange s pos len
      = (true, updateState (s.head.take i ++ deleteLoop (c :: suf) len lo)) := by
    rw [deleteRange, if_neg hnlt, hfind]
    simp only [hdrop, hcp, Bool.false_eq_true, if_false]
  have hsimple : Simple.deleteRange s pos len
      = (true, updateState (Simple.simpleDelLoop len s.head pos len)) := by
    rw [Simple.deleteRange, if_neg hnlt]
  by_cases hz : len = 0
  · subst hz
    rw [hmain, hsimple, simpleDelLoop_zero, deleteLoop_zero, ← htd]
    exact ⟨rfl, rfl, rfl⟩
  · obtain ⟨f, rfl⟩ : ∃ f, len = f + 1 := ⟨len - 1, by omega⟩
    have hmin : min (f + 1) (c.length - lo) = f + 1 := by omega
    have hsimpleLoop : Simple.simpleDelLoop (f + 1) s.head pos (f + 1)
        = s.head.take i ++ { c with data := shiftLeft c.data (c.offset + lo) (f + 1) (c.length - lo - (f + 1)), length := c.length - (f + 1) } :: suf := by
      rw [Simple.simpleDelLoop, if_neg (by omega : ¬ f + 1 = 0), hfind]
      dsimp only
      rw [hdrop]
      dsimp only
      rw [hmin, show f + 1 - (f + 1) = 0 from by omega, simpleDelLoop_zero]
    rw [hmain, hsimple, hsimpleLoop]
    by_cases hpart : f + 1 < c.length - lo
    · -- the range ends strictly inside the segment: the chains coincide
      rw [show deleteLoop (c :: suf) (f + 1) lo = { c with data := shiftLeft c.data (c.offset + lo) (f + 1) (c.length - lo - (f + 1)), length := c.length - (f + 1) } :: suf from by rw [deleteLoop, if_neg (by omega : ¬ f + 1 = 0), if_pos hpart]]
      exact ⟨rfl, rfl, rfl⟩
    · -- the range reaches exactly the end of the segment
      have havail : c.length - lo = f + 1 := by omega
      have hcnt0 : c.length - lo - (f + 1) = 0 := by omega
      have hclen : c.length - (f + 1) = lo := by omega
      rw [hcnt0, shiftLeft_cnt_zero, hclen]
      by_cases hlz : lo = 0
      · subst hlz
        have hmainLoop : deleteLoop (c :: suf) (f + 1) 0 = suf := by
          rw [deleteLoop, if_neg (by omega : ¬ f + 1 = 0),
            if_neg (by omega : ¬ f + 1 < c.length - 0), if_pos rfl,
            show f + 1 - (c.length - 0) = 0 from by omega, deleteLoop_zero]
        rw [hmainLoop]
        have hwz : winOK (s.head.take i ++ { c with data := c.data, length := 0 } :: suf) = true := by
          rw [winOK_append, hwPre]
          apply (Bool.and_eq_true _ _).mpr
          refine ⟨rfl, winOK_cons.mpr ⟨by dsimp only; omega, hsufWin⟩⟩
        have hwm : winOK (s.head.take i ++ suf) = true := by
          rw [winOK_append, hwPre, hsufWin]
          rfl
        refine ⟨rfl, ?_, ?_⟩
        · rw [getAll_updateState hwz, getAll_updateState hwm, flatten_append, flatten_append]
          rw [show flatten ({ c with data := c.data, length := 0 } :: suf)
            = window { c with data := c.data, length := 0 } ++ flatten suf from rfl]
          rw [show window ({ c with data := c.data, length := 0 } : SegmentNode) = [] from by simp [window]]
          rw [List.nil_append]
        · rw [updateState_total, updateState_total, sumLen_append, sumLen_append,
            show sumLen ({ c with data := c.data, length := 0 } :: suf) = 0 + sumLen suf from rfl]
          omega
      · have hmainLoop : deleteLoop (c :: suf) (f + 1) lo = { c with length := lo } :: suf := by
          rw [deleteLoop, if_neg (by omega : ¬ f + 1 = 0),
            if_neg (by omega : ¬ f + 1 < c.length - lo), if_neg hlz,
            show f + 1 - (c.length - lo) = 0 from by omega, deleteLoop_zero]
        rw [hmainLoop,
          show ({ c with data := c.data, length := lo } : SegmentNode) = { c with length := lo } from rfl]
        exact ⟨rfl, rfl, rfl⟩

end AudioEditor

namespace AudioEditor

/-- With both ranges in bounds and at least one sample, the simple
implementation's `insert` produces the same observable track as the main
one. -/
theorem simple_insert_agree {d src : SoundSegment} {dp sp len : Nat}
    (hwfd : wf d = true) (hwfs : wf src = true) (hlen : 0 < len)
    (hsp : sp + len ≤ src.total_length) (hdp : dp ≤ d.total_length) :
    ∃ d', insert d src dp sp len = some d'
      ∧ getAllSamples (Simple.insert d src dp sp len) = getAllSamples d'
      ∧ (Simple.insert d src dp sp len).total_length = d'.total_length := by
  obtain ⟨d', hd', hcontents, htotal, hwf'⟩ := insert_spec src dp sp len hwfd hwfs hsp hdp
  have hsl : (getAllSamples src).length = src.total_length := read_length src 0 _
  have hdl : (getAllSamples d).length = d.total_length := read_length d 0 _
  have hg1 : ¬ ((getAllSamples src).length ≤ sp) := by omega
  have hg2 : ¬ ((getAllSamples src).length < sp + len) := by omega
  have hsimple : Simple.insert d src dp sp len
      = write emptyTrack ((getAllSamples d).take dp
          ++ (((getAllSamples src).drop sp).take len ++ (getAllSamples d).drop dp)) 0 := by
    rw [Simple.insert]
    simp only [if_neg hg1, if_neg hg2, List.append_assoc]
  set nd := (getAllSamples d).take dp
      ++ (((getAllSamples src).drop sp).take len ++ (getAllSamples d).drop dp) with hnd_def
  have hndlen : nd.length = d.total_length + len := by
    rw [hnd_def]
    simp [List.length_take, List.length_drop]
    omega
  have hndne : nd ≠ [] := by
    intro h
    rw [h] at hndlen
    simp at hndlen
    omega
  obtain ⟨hwfw, htotw, hflw⟩ := @write_spec emptyTrack nd 0 (by rfl) hndne
  have hflatw : flatten (write emptyTrack nd 0).head = nd := by
    rw [hflw, show flatten emptyTrack.head = ([] : List Int) from rfl,
      show emptyTrack.total_length = 0 from rfl]
    simp
  refine ⟨d', hd', ?_, ?_⟩
  · rw [hsimple, getAllSamples_wf hwfw, hflatw, hcontents, hnd_def]
  · rw [hsimple, htotw, htotal]
    show max emptyTrack.total_length (0 + nd.length) = _
    rw [show emptyTrack.total_length = 0 from rfl]
    omega

end AudioEditor

/-! ## The claims -/

namespace AudioEditor

/-- C1: `deleteRange(pos, len)` with `pos + len > total_length` returns
`false`, and whenever `deleteRange` returns `false` (for any reason) the
track is left completely unchanged — same segment chain, same
`total_length`, hence the same samples on every read (all-or-nothing
failure). -/
theorem C1_delete_out_of_range_all_or_nothing (s : SoundSegment) (pos len : Nat) :
    (s.total_length < pos + len → deleteRange s pos len = (false, s))
    ∧ ((deleteRange s pos len).1 = false → (deleteRange s pos len).2 = s) :=
  deleteRange_false

theorem C1_witness :
    deleteRange (write emptyTrack [1, 2, 3] 0) 2 5 = (false, write emptyTrack [1, 2, 3] 0)
    ∧ (deleteRange (write emptyTrack [1, 2, 3] 0) 2 5).2 = write emptyTrack [1, 2, 3] 0 :=
  ⟨(C1_delete_out_of_range_all_or_nothing (write emptyTrack [1, 2, 3] 0) 2 5).1 (by decide),
   (C1_delete_out_of_range_all_or_nothing (write emptyTrack [1, 2, 3] 0) 2 5).2 (by decide)⟩

/-- C2: on a well-formed track with no touched segment holding a live child
reference and `pos + len ≤ total_length`, `deleteRange(pos, len)` returns
`true`, the contents lose exactly the slice `[pos, pos + len)`, and
`total_length` drops by `len`; in particular writing
`[10,20,30,40,50,60,70,80,90,100]` at `0` and then `deleteRange(3, 4)`
succeeds and leaves `[10,20,30,80,90,100]`. -/
theorem C2_delete_correct :
    (∀ (s : SoundSegment) (pos len : Nat), wf s = true →
      touchedHasChild s.head pos len = false → pos + len ≤ s.total_length →
      (deleteRange s pos len).1 = true
      ∧ getAllSamples (deleteRange s pos len).2
          = (getAllSamples s).take pos ++ (getAllSamples s).drop (pos + len)
      ∧ (deleteRange s pos len).2.total_length = s.total_length - len)
    ∧ (deleteRange (write emptyTrack [10, 20, 30, 40, 50, 60, 70, 80, 90, 100] 0) 3 4).1 = true
    ∧ getAllSamples (deleteRange (write emptyTrack [10, 20, 30, 40, 50, 60, 70, 80, 90, 100] 0) 3 4).2
        = [10, 20, 30, 80, 90, 100] := by
  refine ⟨?_, by decide, by decide⟩
  intro s pos len hwf hnc hle
  obtain ⟨h1, h2, h3, _⟩ := deleteRange_spec hwf hnc hle
  exact ⟨h1, h2, h3⟩

theorem C2_witness :
    (deleteRange (write emptyTrack [10, 20, 30, 40, 50, 60, 70, 80, 90, 100] 0) 3 4).1 = true
    ∧ getAllSamples (deleteRange (write emptyTrack [10, 20, 30, 40, 50, 60, 70, 80, 90, 100] 0) 3 4).2
        = (getAllSamples (write emptyTrack [10, 20, 30, 40, 50, 60, 70, 80, 90, 100] 0)).take 3
          ++ (getAllSamples (write emptyTrack [10, 20, 30, 40, 50, 60, 70, 80, 90, 100] 0)).drop 7
    ∧ (deleteRange (write emptyTrack [10, 20, 30, 40, 50, 60, 70, 80, 90, 100] 0) 3 4).2.total_length
        = (write emptyTrack [10, 20, 30, 40, 50, 60, 70, 80, 90, 100] 0).total_length - 4 :=
  C2_delete_correct.1 (write emptyTrack [10, 20, 30, 40, 50, 60, 70, 80, 90, 100] 0) 3 4
    (by decide) (by decide) (by decide)

/-- C3: with both ranges in bounds on well-formed tracks,
`insert(src, dest_pos, src_pos, len)` makes the destination's contents
`d[0, dest_pos) ++ s[src_pos, src_pos + len) ++ d[dest_pos, |d|)`; in
particular with destination `[1..10]` and source `[100,101,102,103,104]`,
`insert(source, 5, 1, 3)` yields `[1,2,3,4,5,101,102,103,6,7,8,9,10]`. -/
theorem C3_insert_correct :
    (∀ (d src : SoundSegment) (dest_pos src_pos len : Nat),
      wf d = true → wf src = true → src_pos + len ≤ src.total_length →
      dest_pos ≤ d.total_length →
      ∃ d', insert d src dest_pos src_pos len = some d'
        ∧ getAllSamples d' = (getAllSamples d).take dest_pos
            ++ (((getAllSamples src).drop src_pos).take len
              ++ (getAllSamples d).drop dest_pos))
    ∧ (insert (write emptyTrack [1, 2, 3, 4, 5, 6, 7, 8, 9, 10] 0)
        (write emptyTrack [100, 101, 102, 103, 104] 0) 5 1 3).map getAllSamples
        = some [1, 2, 3, 4, 5, 101, 102, 103, 6, 7, 8, 9, 10] := by
  refine ⟨?_, by decide⟩
  intro d src dp sp len hwfd hwfs hsp hdp
  obtain ⟨d', h1, h2, _, _⟩ := insert_spec src dp sp len hwfd hwfs hsp hdp
  exact ⟨d', h1, h2⟩

theorem C3_witness :
    ∃ d', insert (write emptyTrack [1, 2, 3, 4, 5, 6, 7, 8, 9, 10] 0)
        (write emptyTrack [100, 101, 102, 103, 104] 0) 5 1 3 = some d'
      ∧ getAllSamples d'
          = (getAllSamples (write emptyTrack [1, 2, 3, 4, 5, 6, 7, 8, 9, 10] 0)).take 5
            ++ (((getAllSamples (write emptyTrack [100, 101, 102, 103, 104] 0)).drop 1).take 3
              ++ (getAllSamples (write emptyTrack [1, 2, 3, 4, 5, 6, 7, 8, 9, 10] 0)).drop 5) :=
  C3_insert_correct.1 (write emptyTrack [1, 2, 3, 4, 5, 6, 7, 8, 9, 10] 0)
    (write emptyTrack [100, 101, 102, 103, 104] 0) 5 1 3
    (by decide) (by decide) (by decide) (by decide)

end AudioEditor

namespace AudioEditor

/-- C4: on any well-formed track, `write(S, 0)` followed by
`read(0, |S|)` returns exactly `S`. -/
theorem C4_write_read_roundtrip (s : SoundSegment) (S : List Int) (hwf : wf s = true) :
    read (write s S 0) 0 S.length = S := by
  by_cases h : S = []
  · subst h
    simpa using read_len_zero (write s [] 0) 0
  · obtain ⟨hwf', htot', hfl⟩ := @write_spec s S 0 hwf h
    rcases wf_iff.mp hwf' with ⟨hidx', _, htots'⟩
    have hr : 0 + S.length ≤ sumLen (write s S 0).head := by
      rw [← htots', htot']
      omega
    rw [read_spec hidx' hr, hfl]
    simp

theorem C4_witness :
    read (write emptyTrack [1, 2, 3] 0) 0 ([1, 2, 3] : List Int).length = [1, 2, 3] :=
  C4_write_read_roundtrip emptyTrack [1, 2, 3] (by decide)

/-- C5: writing a non-empty `S` at `pos` strictly beyond the current length
`L` extends the track to `total_length = pos + |S|`, the gap `[L, pos)`
reads back as zeros, and `[pos, pos + |S|)` reads back as `S` — no
uninitialised hole is observable. -/
theorem C5_extension_gap (s : SoundSegment) (S : List Int) (pos : Nat)
    (hwf : wf s = true) (hne : S ≠ []) (hgt : s.total_length < pos) :
    (write s S pos).total_length = pos + S.length
    ∧ read (write s S pos) s.total_length (pos - s.total_length)
        = List.replicate (pos - s.total_length) 0
    ∧ read (write s S pos) pos S.length = S := by
  obtain ⟨hwf', htot', hfl⟩ := @write_spec s S pos hwf hne
  rcases wf_iff.mp hwf' with ⟨hidx', _, htots'⟩
  rcases wf_iff.mp hwf with ⟨hidx, _, htot⟩
  have hSlen : 0 < S.length := List.length_pos.mpr hne
  have hmax : max s.total_length (pos + S.length) = pos + S.length := by omega
  have hfl_len : (flatten s.head).length = s.total_length := by
    rw [length_flatten (winOK_of_chainIdx hidx), htot]
  have hpad_len : (flatten s.head ++ List.replicate (pos + S.length - s.total_length) 0).length
      = pos + S.length := by
    simp [hfl_len]
    omega
  set pad := flatten s.head ++ List.replicate (pos + S.length - s.total_length) 0 with hpad
  have hpad_eq : pad = flatten s.head ++ List.replicate (pos + S.length - s.total_length) 0 := hpad
  have hdropEmpty : pad.drop (pos + S.length) = [] := by
    apply List.drop_eq_nil_of_le
    omega
  have hfl' : flatten (write s S pos).head = pad.take pos ++ S := by
    rw [hfl, hdropEmpty, List.append_nil]
  have htake_len : (pad.take pos).length = pos := by
    rw [List.length_take]
    omega
  have hsum' : sumLen (write s S pos).head = pos + S.length := by
    rw [← htots', htot', hmax]
  have htp : pad.take pos = flatten s.head ++ List.replicate (pos - s.total_length) 0 := by
    rw [hpad_eq, take_append_ge (by omega), List.take_replicate, hfl_len]
    congr 2
    omega
  refine ⟨by rw [htot', hmax], ?_, ?_⟩
  · rw [read_spec hidx' (by omega), hfl']
    rw [drop_append_le (by omega : s.total_length ≤ (pad.take pos).length)]
    rw [htp, drop_append_ge (le_of_eq hfl_len), hfl_len, Nat.sub_self, List.drop_zero]
    rw [take_append_le (by simp), List.take_replicate]
    congr 1
    omega
  · rw [read_spec hidx' (by omega), hfl', drop_append_ge (le_of_eq htake_len), htake_len,
      Nat.sub_self, List.drop_zero, List.take_length]

theorem C5_witness :
    (write (write emptyTrack [1, 2] 0) [7, 8] 5).total_length = 5 + ([7, 8] : List Int).length
    ∧ read (write (write emptyTrack [1, 2] 0) [7, 8] 5) (write emptyTrack [1, 2] 0).total_length
        (5 - (write emptyTrack [1, 2] 0).total_length)
        = List.replicate (5 - (write emptyTrack [1, 2] 0).total_length) 0
    ∧ read (write (write emptyTrack [1, 2] 0) [7, 8] 5) 5 ([7, 8] : List Int).length = [7, 8] :=
  C5_extension_gap (write emptyTrack [1, 2] 0) [7, 8] 5 (by decide) (by decide) (by decide)

/-- C6: every track reachable from the empty one by public operations
(`write`, `deleteRange`, `insert`, `loadFromWav`) satisfies the structural
invariant: each cached `global_start` is the running sum of the preceding
lengths (so the segment ranges tile `[0, total_length)` contiguously,
without gaps or overlaps), no segment has length `0`, and `total_length` is
the sum of the segment lengths. -/
theorem C6_invariants (s : SoundSegment) (h : Reachable s) :
    chainIdx s.head 0 = true ∧ allPos s.head = true
    ∧ s.total_length = sumLen s.head ∧ wf s = true := by
  have hwf := (reachable_wf h).1
  rcases wf_iff.mp hwf with ⟨h1, h2, h3⟩
  exact ⟨h1, h2, h3, hwf⟩

theorem C6_witness :
    chainIdx (write emptyTrack [1, 2] 0).head 0 = true
    ∧ allPos (write emptyTrack [1, 2] 0).head = true
    ∧ (write emptyTrack [1, 2] 0).total_length = sumLen (write emptyTrack [1, 2] 0).head
    ∧ wf (write emptyTrack [1, 2] 0) = true :=
  C6_invariants (write emptyTrack [1, 2] 0)
    (Relation.ReflTransGen.single (Step.write emptyTrack [1, 2] 0))

end AudioEditor

namespace AudioEditor

/-- C7 (amended): the first pass of `deleteRange` does refuse and leave the
track untouched when a touched segment carries a live child reference; but
the converse direction of the claim fails, because `insert` never registers
its clones as children (`addChild` is never invoked anywhere in the
repository), so every reachable track is childless and deletions of
previously cloned ranges still succeed (see the counterexample). -/
theorem C7_children_refusal :
    (∀ (s : SoundSegment) (pos len : Nat), wf s = true → pos + len ≤ s.total_length →
      touchedHasChild s.head pos len = true → deleteRange s pos len = (false, s))
    ∧ (∀ s : SoundSegment, Reachable s → chainNoChild s.head = true) :=
  ⟨fun _ _ _ hwf hle ht => deleteRange_refuses hwf hle ht,
   fun _ h => (reachable_wf h).2⟩

theorem C7_witness :
    deleteRange (⟨[⟨[5, 6], 0, 2, 0, 1⟩], 2⟩ : SoundSegment) 0 1
      = (false, (⟨[⟨[5, 6], 0, 2, 0, 1⟩], 2⟩ : SoundSegment))
    ∧ chainNoChild (emptyTrack).head = true :=
  ⟨C7_children_refusal.1 ⟨[⟨[5, 6], 0, 2, 0, 1⟩], 2⟩ 0 1 (by decide) (by decide) (by decide),
   C7_children_refusal.2 emptyTrack Relation.ReflTransGen.refl⟩

/-- C7, counterexample to the converse: a source track is cloned by a
successful `insert` (the clone is alive in the destination), yet deleting
the cloned range from the source immediately afterwards succeeds —
`deleteRange` returns `true` instead of refusing. -/
theorem C7_counterexample :
    (insert emptyTrack (write emptyTrack [1, 2, 3, 4, 5] 0) 0 1 2).isSome = true
    ∧ (deleteRange (write emptyTrack [1, 2, 3, 4, 5] 0) 1 2).1 = true := by
  exact ⟨by decide, by decide⟩

/-- C8: `identify` returns the empty result when either track is empty or
the target is shorter than the pattern; every recorded match `(i, j)` has
`j = i + |P| - 1`, lies in bounds, and its window's dot product with the
pattern reaches `threshold = 0.95 * Σ P[k]²`; the matches are pairwise
non-overlapping and strictly ascending (consecutive starts differ by at
least `|P|`); and the concrete target
`[1,2,3,10,20,30,4,5,6,10,20,30,7,8,9]` with pattern `[10,20,30]` yields
exactly `[(3,5), (9,11)]`. -/
theorem C8_identify :
    (∀ s ad : SoundSegment,
      (s.total_length = 0 ∨ ad.total_length = 0 ∨ s.total_length < ad.total_length) →
      identify s ad = [])
    ∧ (∀ s ad : SoundSegment, ∀ m ∈ identify s ad,
        m.2 = m.1 + ad.total_length - 1 ∧ m.1 + ad.total_length ≤ s.total_length
        ∧ threshold (getAllSamples ad) ≤ corrAt (getAllSamples s) (getAllSamples ad) m.1)
    ∧ (∀ s ad : SoundSegment,
        List.Pairwise (fun a b => a.1 + ad.total_length ≤ b.1) (identify s ad))
    ∧ identify (write emptyTrack [1, 2, 3, 10, 20, 30, 4, 5, 6, 10, 20, 30, 7, 8, 9] 0)
        (write emptyTrack [10, 20, 30] 0) = [(3, 5), (9, 11)] :=
  ⟨fun _ _ h => identify_guard h,
   fun s ad => identify_matches s ad,
   fun s ad => identify_pairwise s ad,
   by decide⟩

theorem C8_witness :
    identify emptyTrack (write emptyTrack [1] 0) = []
    ∧ threshold (getAllSamples (write emptyTrack [10, 20, 30] 0))
        ≤ corrAt (getAllSamples (write emptyTrack [1, 2, 3, 10, 20, 30, 4, 5, 6, 10, 20, 30, 7, 8, 9] 0))
            (getAllSamples (write emptyTrack [10, 20, 30] 0)) 3 :=
  ⟨C8_identify.1 emptyTrack (write emptyTrack [1] 0) (Or.inl rfl),
   (C8_identify.2.1 (write emptyTrack [1, 2, 3, 10, 20, 30, 4, 5, 6, 10, 20, 30, 7, 8, 9] 0)
      (write emptyTrack [10, 20, 30] 0) (3, 5) (by decide)).2.2⟩

end AudioEditor

namespace AudioEditor

/-- C9 (amended): the two implementations agree on the compared observables
only in restricted situations — out-of-range deletions (both fail and leave
the track unchanged), deletions whose range lies within a single segment,
and in-bounds insertions; full observational equivalence fails on
multi-segment deletions (see the counterexample). -/
theorem C9_partial_equivalence :
    (∀ (s : SoundSegment) (pos len : Nat), s.total_length < pos + len →
      Simple.deleteRange s pos len = deleteRange s pos len)
    ∧ (∀ (s : SoundSegment) (pos len i lo : Nat) (c : SegmentNode) (suf : List SegmentNode),
        wf s = true → chainNoChild s.head = true → pos + len ≤ s.total_length →
        findSegmentAt s.head pos = some (i, lo) → s.head.drop i = c :: suf →
        len ≤ c.length - lo →
        (Simple.deleteRange s pos len).1 = (deleteRange s pos len).1
        ∧ getAllSamples (Simple.deleteRange s pos len).2
            = getAllSamples (deleteRange s pos len).2
        ∧ (Simple.deleteRange s pos len).2.total_length
            = (deleteRange s pos len).2.total_length)
    ∧ (∀ (d src : SoundSegment) (dp sp len : Nat),
        wf d = true → wf src = true → 0 < len → sp + len ≤ src.total_length →
        dp ≤ d.total_length →
        ∃ d', insert d src dp sp len = some d'
          ∧ getAllSamples (Simple.insert d src dp sp len) = getAllSamples d'
          ∧ (Simple.insert d src dp sp len).total_length = d'.total_length) :=
  ⟨fun _ _ _ h => simple_deleteRange_oor h,
   fun _ _ _ _ _ _ _ hwf hnc hle hfind hdrop hseg =>
     simple_deleteRange_single hwf hnc hle hfind hdrop hseg,
   fun _ _ _ _ _ hwfd hwfs hlen hsp hdp => simple_insert_agree hwfd hwfs hlen hsp hdp⟩

theorem C9_witness :
    Simple.deleteRange (write emptyTrack [1, 2, 3] 0) 2 5
      = deleteRange (write emptyTrack [1, 2, 3] 0) 2 5
    ∧ ((Simple.deleteRange (write emptyTrack [1, 2, 3] 0) 0 2).1
        = (deleteRange (write emptyTrack [1, 2, 3] 0) 0 2).1
      ∧ getAllSamples (Simple.deleteRange (write emptyTrack [1, 2, 3] 0) 0 2).2
          = getAllSamples (deleteRange (write emptyTrack [1, 2, 3] 0) 0 2).2
      ∧ (Simple.deleteRange (write emptyTrack [1, 2, 3] 0) 0 2).2.total_length
          = (deleteRange (write emptyTrack [1, 2, 3] 0) 0 2).2.total_length) :=
  ⟨C9_partial_equivalence.1 (write emptyTrack [1, 2, 3] 0) 2 5 (by decide),
   C9_partial_equivalence.2.1 (write emptyTrack [1, 2, 3] 0) 0 2 0 0
     ⟨[1, 2, 3], 0, 3, 0, 0⟩ [] (by decide) (by decide) (by decide) (by decide)
     (by decide) (by decide)⟩

/-- C9, counterexample: on the two-segment track holding
`[1, 2, 3, 4, 5, 6, 7]` (a write of `[1..5]` followed by an extending write
of `[6, 7]` at position `5`), `deleteRange(1, 5)` reports success in both
implementations, but the main one correctly leaves `[1, 7]` of length `2`
while the simple one leaves `[1, 6, 7]` of length `3` — its deletion loop
never advances past the first segment, so the observables differ. -/
theorem C9_counterexample :
    (deleteRange (write (write emptyTrack [1, 2, 3, 4, 5] 0) [6, 7] 5) 1 5).1 = true
    ∧ (Simple.deleteRange (write (write emptyTrack [1, 2, 3, 4, 5] 0) [6, 7] 5) 1 5).1 = true
    ∧ getAllSamples (deleteRange (write (write emptyTrack [1, 2, 3, 4, 5] 0) [6, 7] 5) 1 5).2
        = [1, 7]
    ∧ getAllSamples (Simple.deleteRange (write (write emptyTrack [1, 2, 3, 4, 5] 0) [6, 7] 5) 1 5).2
        = [1, 6, 7]
    ∧ (deleteRange (write (write emptyTrack [1, 2, 3, 4, 5] 0) [6, 7] 5) 1 5).2.total_length = 2
    ∧ (Simple.deleteRange (write (write emptyTrack [1, 2, 3, 4, 5] 0) [6, 7] 5) 1 5).2.total_length
        = 3 := by
  refine ⟨by decide, by decide, by decide, by decide, by decide, by decide⟩

/-- C10: the claimed behaviour does not hold — with `len > 0` and
`src_pos ≥ src.length()` the clone-building loop produces an empty chain
(`insertion_head = insertion_tail = nullptr`), and when `dest_pos` lands on
an existing destination segment the splice executes
`insertion_tail->next = dest_node` on the null pointer
(`SoundSegment.cpp:458` and `:467`): a crash, modelled as `none`, rather
than leaving the destination unchanged. -/
theorem C10_insert_empty_source_crash :
    insert (write emptyTrack [1, 2, 3] 0) (write emptyTrack [9] 0) 0 1 1 = none := by
  decide

end AudioEditor
